import Mathlib

/-!
# polybar_another_battery: a verification development

Shallow embedding of `polybar_ab.go`: the float64 arithmetic the program
relies on, the per-poll policy of `main`, and the presenter functions
`get_color`, `polybar_out` and `timeRemaining`.
-/

namespace PolybarAB

/-! ## float64 -/

/-- A Go `float64`: not-a-number, a signed infinity, or the finite value
`(-1)^neg * m * 2^e` (sign and magnitude, so that both zeros exist). -/
inductive F64 where
  | nan : F64
  | inf (neg : Bool) : F64
  | fin (neg : Bool) (m : Nat) (e : Int) : F64
  deriving DecidableEq

namespace F64

/-- The finite value denoted by sign, significand and exponent. -/
def val (neg : Bool) (m : Nat) (e : Int) : ℚ :=
  (if neg then -1 else 1) * (m : ℚ) * (2 : ℚ) ^ e

/-- Representable in binary64: a 53 bit significand and an exponent in the
range of the format (subnormals included). -/
def Valid : F64 → Prop
  | fin _ m e => m < 2 ^ 53 ∧ -1074 ≤ e ∧ e ≤ 971
  | _ => True

/-- The signed integer `(-1)^neg * m * 2^(e - lo)`, for `lo ≤ e`. -/
def scaled (neg : Bool) (m : Nat) (e lo : Int) : Int :=
  let a : Int := ((m * 2 ^ (e - lo).toNat : Nat) : Int)
  if neg then -a else a

/-- Go `x <= y` on float64. -/
def le : F64 → F64 → Bool
  | nan, _ => false
  | _, nan => false
  | inf true, _ => true
  | _, inf false => true
  | inf false, _ => false
  | _, inf true => false
  | fin n1 m1 e1, fin n2 m2 e2 =>
    decide (scaled n1 m1 e1 (min e1 e2) ≤ scaled n2 m2 e2 (min e1 e2))

/-- Go `x < y` on float64. -/
def lt : F64 → F64 → Bool
  | nan, _ => false
  | _, nan => false
  | inf true, inf true => false
  | inf true, _ => true
  | inf false, _ => false
  | _, inf false => true
  | _, inf true => false
  | fin n1 m1 e1, fin n2 m2 e2 =>
    decide (scaled n1 m1 e1 (min e1 e2) < scaled n2 m2 e2 (min e1 e2))

/-- Go `x > y` on float64. -/
def gt (x y : F64) : Bool := lt y x

/-- Go `x == y` on float64. -/
def eq : F64 → F64 → Bool
  | nan, _ => false
  | _, nan => false
  | inf a, inf b => a == b
  | inf _, _ => false
  | _, inf _ => false
  | fin n1 m1 e1, fin n2 m2 e2 =>
    decide (scaled n1 m1 e1 (min e1 e2) = scaled n2 m2 e2 (min e1 e2))

/-- Go `x != y` on float64. -/
def ne (x y : F64) : Bool := !(eq x y)

/-- Neither a NaN nor an infinity. -/
def isFinite : F64 → Bool
  | fin _ _ _ => true
  | _ => false

/-- Go `math.IsNaN`. -/
def isNaN : F64 → Bool
  | nan => true
  | _ => false

/-- Halving `n` until it is below 2, at most `fuel` times, counting. -/
def log2Fuel : Nat → Nat → Nat
  | 0, _ => 0
  | fuel + 1, n => if 2 ≤ n then log2Fuel fuel (n / 2) + 1 else 0

/-- The integer `floor (log2 n)` (and 0 for 0). -/
def ilog2 (n : Nat) : Nat := log2Fuel n n

/-- The integer `floor (log2 (N / D))`, for positive `N` and `D`. -/
def ilog2Frac (N D : Nat) : Int :=
  let c : Int := (ilog2 N : Int) - (ilog2 D : Int)
  if D * 2 ^ c.toNat ≤ N * 2 ^ (-c).toNat then c else c - 1

/-- The integer nearest to `N / D`, a tie going to the even one. -/
def divRoundEven (N D : Nat) : Nat :=
  let q := N / D
  let r := N % D
  if 2 * r < D then q
  else if D < 2 * r then q + 1
  else if q % 2 = 0 then q else q + 1

/-- The exponent of the unit in the last place that binary64 uses for the
positive number `(N / D) * 2^X`. -/
def ulpExp (N D : Nat) (X : Int) : Int :=
  max (ilog2Frac N D + X - 52) (-1074)

/-- The significand binary64 rounding gives `(N / D) * 2^X` at the exponent
`ulpExp N D X`. -/
def roundSig (N D : Nat) (X : Int) : Nat :=
  let s := X - ulpExp N D X
  divRoundEven (N * 2 ^ s.toNat) (D * 2 ^ (-s).toNat)

/-- IEEE-754 round-to-nearest-even of `(-1)^neg * (N / D) * 2^X` to binary64
(`D` positive): the rounding every float64 operation of Go ends with. -/
def round (neg : Bool) (N D : Nat) (X : Int) : F64 :=
  if N = 0 then fin neg 0 0
  else
    let e := ulpExp N D X
    let m := roundSig N D X
    if m = 2 ^ 53 then (if 971 < e + 1 then inf neg else fin neg (2 ^ 52) (e + 1))
    else if 971 < e then inf neg
    else fin neg m e

/-- Go unary minus on float64. -/
def neg : F64 → F64
  | nan => nan
  | inf s => inf (!s)
  | fin s m e => fin (!s) m e

/-- Go `x * y` on float64. -/
def mul : F64 → F64 → F64
  | nan, _ => nan
  | _, nan => nan
  | inf s, inf t => inf (xor s t)
  | inf s, fin t m _ => if m = 0 then nan else inf (xor s t)
  | fin s m _, inf t => if m = 0 then nan else inf (xor s t)
  | fin s m1 e1, fin t m2 e2 => round (xor s t) (m1 * m2) 1 (e1 + e2)

/-- Go `x / y` on float64. -/
def div : F64 → F64 → F64
  | nan, _ => nan
  | _, nan => nan
  | inf _, inf _ => nan
  | inf s, fin t _ _ => inf (xor s t)
  | fin s _ _, inf t => fin (xor s t) 0 0
  | fin s m1 e1, fin t m2 e2 =>
    if m2 = 0 then (if m1 = 0 then nan else inf (xor s t))
    else round (xor s t) m1 m2 (e1 - e2)

/-- Go `x + y` on float64. -/
def add : F64 → F64 → F64
  | nan, _ => nan
  | _, nan => nan
  | inf s, inf t => if s = t then inf s else nan
  | inf s, fin _ _ _ => inf s
  | fin _ _ _, inf t => inf t
  | fin s m1 e1, fin t m2 e2 =>
    let lo := min e1 e2
    let z := scaled s m1 e1 lo + scaled t m2 e2 lo
    if z = 0 then fin (s && t) 0 0
    else round (decide (z < 0)) z.natAbs 1 lo

/-- Go `x - y` on float64. -/
def sub (x y : F64) : F64 := add x (neg y)

/-- Go conversion `float64(i)` of an integer. -/
def ofInt (i : Int) : F64 := round (decide (i < 0)) i.natAbs 1 0

/-- Go conversion of a float64 to a 64 bit signed integer (`int64`, and
`int` on the 64 bit platforms): the fraction is discarded (truncation
towards zero).  When the value does not fit, or is not a number, Go leaves
the result to the implementation: `none`. -/
def toInt64 : F64 → Option Int
  | fin s m e =>
    let a : Nat := if 0 ≤ e then m * 2 ^ e.toNat else m / 2 ^ (-e).toNat
    let i : Int := if s then -(a : Int) else (a : Int)
    if -(2 ^ 63 : Int) ≤ i ∧ i < 2 ^ 63 then some i else none
  | _ => none

/-- Go conversion of a float64 to a 64 bit unsigned integer (truncation);
`none` where Go leaves the result to the implementation. -/
def toUint64 : F64 → Option Nat
  | fin s m e =>
    let a : Nat := if 0 ≤ e then m * 2 ^ e.toNat else m / 2 ^ (-e).toNat
    if a = 0 then some 0
    else if s then none
    else if a < 2 ^ 64 then some a else none
  | _ => none

/-- The integer nearest to the rational `x`, a tie going to the even one:
what `divRoundEven` computes, stated on the quotient. -/
def rheQ (x : ℚ) : ℤ :=
  if x - ⌊x⌋ < 1 / 2 then ⌊x⌋
  else if 1 / 2 < x - ⌊x⌋ then ⌊x⌋ + 1
  else if ⌊x⌋ % 2 = 0 then ⌊x⌋ else ⌊x⌋ + 1

/-- The exponent of the last place of binary64 at the positive rational
`a`: what `ulpExp` computes, stated on the value. -/
def expQ (a : ℚ) : ℤ := max (Int.log 2 a - 52) (-1074)

/-- The positive rational `a` rounded to the binary64 grid (no overflow
taken into account): what `round` computes, stated on the value. -/
def rndQ (a : ℚ) : ℚ := (rheQ (a / (2 : ℚ) ^ expQ a) : ℚ) * (2 : ℚ) ^ expQ a

/-- The rational value of a finite float64 (0 for the others). -/
def toRat : F64 → ℚ
  | fin s m e => val s m e
  | _ => 0

/-- The float64 of a small non-negative integer constant. -/
def ofNat (n : Nat) : F64 := fin false n 0

end F64

/-! ## get_color -/

/-- The Go function `get_color` (the debug print left out). -/
def get_color (val : F64) : String :=
  if F64.le val (F64.ofNat 5) then "FF0000"
  else if F64.le val (F64.ofNat 10) then "FF1A00"
  else if F64.le val (F64.ofNat 15) then "FF3500"
  else if F64.le val (F64.ofNat 20) then "FF5000"
  else if F64.le val (F64.ofNat 25) then "FF6B00"
  else if F64.le val (F64.ofNat 30) then "FF8600"
  else if F64.le val (F64.ofNat 35) then "FFA100"
  else if F64.le val (F64.ofNat 40) then "FFBB00"
  else if F64.le val (F64.ofNat 45) then "FFD600"
  else if F64.le val (F64.ofNat 50) then "FFF100"
  else if F64.le val (F64.ofNat 55) then "F1FF00"
  else if F64.le val (F64.ofNat 60) then "D6FF00"
  else if F64.le val (F64.ofNat 65) then "BBFF00"
  else if F64.le val (F64.ofNat 70) then "A1FF00"
  else if F64.le val (F64.ofNat 75) then "86FF00"
  else if F64.le val (F64.ofNat 80) then "6BFF00"
  else if F64.le val (F64.ofNat 85) then "50FF00"
  else if F64.le val (F64.ofNat 90) then "35FF00"
  else if F64.le val (F64.ofNat 95) then "1AFF00"
  else if F64.le val (F64.ofNat 100) then "00FF00"
  else ""

/-- The twenty colours in the order the specification lists them. -/
def colorTable : List String :=
  ["FF0000", "FF1A00", "FF3500", "FF5000", "FF6B00", "FF8600", "FFA100",
   "FFBB00", "FFD600", "FFF100", "F1FF00", "D6FF00", "BBFF00", "A1FF00",
   "86FF00", "6BFF00", "50FF00", "35FF00", "1AFF00", "00FF00"]

/-! ## fmt.Sprintf -/

/-- What stops an embedded run short of a value. -/
inductive Fault where
  | indexOutOfRange
  | implementationDefined
  | unmodelled
  deriving DecidableEq

/-- Equality of outcomes is decidable, so that an outcome can be computed. -/
instance instDecidableEqExcept {ε α : Type} [DecidableEq ε] [DecidableEq α] :
    DecidableEq (Except ε α)
  | .ok a, .ok b =>
    if h : a = b then isTrue (by rw [h]) else isFalse (fun h2 => h (by cases h2; rfl))
  | .error a, .error b =>
    if h : a = b then isTrue (by rw [h]) else isFalse (fun h2 => h (by cases h2; rfl))
  | .ok _, .error _ => isFalse (fun h => by cases h)
  | .error _, .ok _ => isFalse (fun h => by cases h)

/-- An operand of `fmt.Sprintf`, one constructor per Go type the program
formats. -/
inductive GoArg where
  | str (s : String)
  | f64 (x : F64)
  | int (i : Int)
  deriving DecidableEq

/-- The `k` decimal digits of `f mod 10^k`, most significant first. -/
def fracDigits : Nat → Nat → List Char
  | 0, _ => []
  | k + 1, f => Nat.digitChar (f / 10 ^ k % 10) :: fracDigits k f

/-- Go `strconv.FormatFloat(x, 'f', prec, 64)` as `fmt` prints it: the exact
binary value rounded to `prec` decimals, a tie going to the even digit. -/
def formatFloatF (x : F64) (prec : Nat) : String :=
  match x with
  | F64.nan => "NaN"
  | F64.inf false => "+Inf"
  | F64.inf true => "-Inf"
  | F64.fin s m e =>
    let n := F64.divRoundEven (m * 10 ^ prec * 2 ^ e.toNat) (2 ^ (-e).toNat)
    let digits := Nat.toDigits 10 (n / 10 ^ prec) ++
      (if prec = 0 then [] else '.' :: fracDigits prec n)
    String.mk (if s then '-' :: digits else digits)

/-- Go `%d` of an integer. -/
def formatInt (i : Int) : String :=
  if i < 0 then String.mk ('-' :: Nat.toDigits 10 i.natAbs)
  else String.mk (Nat.toDigits 10 i.natAbs)

/-- The string operand cut to the precision, when the directive has one. -/
def truncateString (s : String) (prec : Option Nat) : String :=
  match prec with
  | none => s
  | some n => String.mk (s.toList.take n)

/-- One directive `%[.prec]verb` of `fmt.Sprintf`, applied to the operands
left: the text it produces and the operands that remain.  A verb that does
not fit its operand yields Go's `%!verb(type=value)`, a verb without
operand `%!verb(MISSING)`.  Directives the program never uses are
`Fault.unmodelled`. -/
def applyVerb (verb : Char) (prec : Option Nat) (args : List GoArg) :
    Except Fault (String × List GoArg) :=
  if verb = '%' then
    (if prec.isSome then .error .unmodelled else .ok ("%", args))
  else
    match args with
    | [] => .ok ("%!" ++ String.singleton verb ++ "(MISSING)", [])
    | GoArg.str s :: rest =>
      if verb = 'v' ∨ verb = 's' then .ok (truncateString s prec, rest)
      else if verb = 'x' ∨ verb = 'X' ∨ verb = 'q' then .error .unmodelled
      else .ok ("%!" ++ String.singleton verb ++ "(string=" ++ truncateString s prec ++ ")", rest)
    | GoArg.f64 x :: rest =>
      if verb = 'f' ∨ verb = 'F' then .ok (formatFloatF x (prec.getD 6), rest)
      else .error .unmodelled
    | GoArg.int i :: rest =>
      if (verb = 'd' ∨ verb = 'v') ∧ prec.isNone then .ok (formatInt i, rest)
      else .error .unmodelled

/-- Where the scan of a format string stands: in plain text, right after a
`%`, or inside the digits of a precision. -/
inductive FmtMode where
  | text
  | percent
  | precision (n : Nat)

/-- The scan of `fmt.Sprintf` over the format, one character at a time. -/
def sprintfScan : List Char → FmtMode → List GoArg → String → Except Fault String
  | [], FmtMode.text, [], acc => .ok acc
  | [], _, _, _ => .error .unmodelled
  | c :: cs, FmtMode.text, args, acc =>
    if c = '%' then sprintfScan cs FmtMode.percent args acc
    else sprintfScan cs FmtMode.text args (acc.push c)
  | c :: cs, FmtMode.percent, args, acc =>
    if c = '.' then sprintfScan cs (FmtMode.precision 0) args acc
    else if c = '+' ∨ c = '-' ∨ c = '#' ∨ c = ' ' ∨ c = '[' ∨ c = '*' ∨ c.isDigit then
      .error .unmodelled
    else
      match applyVerb c none args with
      | .ok (out, rest) => sprintfScan cs FmtMode.text rest (acc ++ out)
      | .error f => .error f
  | c :: cs, FmtMode.precision n, args, acc =>
    if c.isDigit then sprintfScan cs (FmtMode.precision (10 * n + (c.toNat - 48))) args acc
    else if c = '[' ∨ c = '*' then .error .unmodelled
    else
      match applyVerb c (some n) args with
      | .ok (out, rest) => sprintfScan cs FmtMode.text rest (acc ++ out)
      | .error f => .error f

/-- Go `fmt.Sprintf(format, args...)`, for the directives the program uses. -/
def Sprintf (format : String) (args : List GoArg) : Except Fault String :=
  sprintfScan format.toList FmtMode.text args ""

/-! ## time.ParseDuration and time.Duration -/

/-- Go `leadingInt` of package time: the leading decimal digits as an
integer; `none` when it leaves the range `ParseDuration` accepts. -/
def leadingInt : List Char → Nat → Option (Nat × List Char)
  | [], x => some (x, [])
  | c :: cs, x =>
    if c < '0' ∨ '9' < c then some (x, c :: cs)
    else if x > 2 ^ 63 / 10 then none
    else
      let y := x * 10 + (c.toNat - 48)
      if y > 2 ^ 63 then none else leadingInt cs y

/-- Go `leadingFraction` of package time: the digits after the point as an
integer `x` and the power of ten `scale` they are to be divided by; digits
past the capacity are dropped. -/
def leadingFraction : List Char → Nat → F64 → Bool → Nat × F64 × List Char
  | [], x, scale, _ => (x, scale, [])
  | c :: cs, x, scale, overflow =>
    if c < '0' ∨ '9' < c then (x, scale, c :: cs)
    else if overflow then leadingFraction cs x scale true
    else if x > (2 ^ 63 - 1) / 10 then leadingFraction cs x scale true
    else
      let y := x * 10 + (c.toNat - 48)
      if y > 2 ^ 63 then leadingFraction cs x scale true
      else leadingFraction cs y (F64.mul scale (F64.ofNat 10)) false

/-- Go `unitMap` of package time: nanoseconds per unit. -/
def unitMap (u : String) : Option Nat :=
  if u = "ns" then some 1
  else if u = "us" then some 1000
  else if u = "µs" then some 1000
  else if u = "μs" then some 1000
  else if u = "ms" then some 1000000
  else if u = "s" then some 1000000000
  else if u = "m" then some 60000000000
  else if u = "h" then some 3600000000000
  else none

/-- The loop of Go `time.ParseDuration` over the groups `[0-9]*(\.[0-9]*)?[a-z]+`,
with `d` the nanoseconds summed so far (a uint64); `none` is the error return. -/
def parseGroups : Nat → List Char → Nat → Option Nat
  | 0, _, _ => none
  | _ + 1, [], d => some d
  | fuel + 1, c :: cs, d =>
    if ¬ (c = '.' ∨ ('0' ≤ c ∧ c ≤ '9')) then none
    else
      match leadingInt (c :: cs) 0 with
      | none => none
      | some (v, s1) =>
        let pre := decide ((c :: cs).length ≠ s1.length)
        let (f, scale, s2, post) :=
          match s1 with
          | '.' :: t =>
            let r := leadingFraction t 0 (F64.ofNat 1) false
            (r.1, r.2.1, r.2.2, decide (t.length ≠ r.2.2.length))
          | _ => (0, F64.ofNat 1, s1, false)
        if !pre && !post then none
        else
          let u := s2.takeWhile (fun c => ¬ (c = '.' ∨ ('0' ≤ c ∧ c ≤ '9')))
          let s3 := s2.dropWhile (fun c => ¬ (c = '.' ∨ ('0' ≤ c ∧ c ≤ '9')))
          if u = [] then none
          else
            match unitMap (String.mk u) with
            | none => none
            | some unit =>
              if v > 2 ^ 63 / unit then none
              else
                let v1 := v * unit
                let v2 : Option Nat :=
                  if 0 < f then
                    match F64.toUint64
                        (F64.mul (F64.ofInt f) (F64.div (F64.ofInt unit) scale)) with
                    | none => none
                    | some w => some ((v1 + w) % 2 ^ 64)
                  else some v1
                match v2 with
                | none => none
                | some v3 =>
                  if 0 < f ∧ v3 > 2 ^ 63 then none
                  else
                    let d1 := (d + v3) % 2 ^ 64
                    if d1 > 2 ^ 63 then none else parseGroups fuel s3 d1

/-- Go `time.ParseDuration`: the duration in nanoseconds, `none` for the
error return. -/
def ParseDuration (s : String) : Option Int :=
  let cs := s.toList
  let neg := decide (cs.head? = some '-')
  let body := if cs.head? = some '-' ∨ cs.head? = some '+' then cs.tail else cs
  if body = ['0'] then some 0
  else if body = [] then none
  else
    match parseGroups (body.length + 1) body 0 with
    | none => none
    | some d =>
      if neg then some (-(d : Int))
      else if d > 2 ^ 63 - 1 then none
      else some (d : Int)

/-- Go `Duration.Hours`. -/
def Duration_Hours (d : Int) : F64 :=
  let hour := Int.tdiv d 3600000000000
  let nsec := Int.tmod d 3600000000000
  F64.add (F64.ofInt hour) (F64.div (F64.ofInt nsec) (F64.ofNat 3600000000000))

/-- Go `Duration.Minutes`. -/
def Duration_Minutes (d : Int) : F64 :=
  let min := Int.tdiv d 60000000000
  let nsec := Int.tmod d 60000000000
  F64.add (F64.ofInt min) (F64.div (F64.ofInt nsec) (F64.ofNat 60000000000))

/-- The number of millionths of an hour in the text `%f` prints for the
finite float64 of significand `m` and exponent `e`: its magnitude times
10^6, rounded to the nearest integer, a tie going to the even one. -/
def microHours (m : Nat) (e : Int) : Nat :=
  F64.divRoundEven (m * 10 ^ 6 * 2 ^ e.toNat) (2 ^ (-e).toNat)

/-! ## timeRemaining -/

/-- The glyph `timeRemaining` puts in front of the time (U+F254). -/
def clock_img : String := "\uF254"

/-- Go conversion `int64(x)`, or `int(x)`, of a float64 inside an expression. -/
def int64Of (x : F64) : Except Fault Int :=
  match F64.toInt64 x with
  | some i => .ok i
  | none => .error .implementationDefined

/-- The Go function `timeRemaining`.  The error of `ParseDuration` is
discarded as in the source, which leaves `d` at 0. -/
def timeRemaining (dur : F64) : Except Fault String :=
  if F64.eq dur (F64.ofNat 0) then .ok ""
  else do
    let text ← Sprintf "%fh" [GoArg.f64 dur]
    let d : Int := (ParseDuration text).getD 0
    if F64.lt (Duration_Hours d) (F64.ofNat 0) then do
      let mins ← int64Of (Duration_Minutes d)
      Sprintf "%s %dm " [GoArg.str clock_img, GoArg.int mins]
    else do
      let hours ← int64Of (Duration_Hours d)
      let mins ← int64Of (Duration_Minutes d)
      Sprintf "%s %dh %dm" [GoArg.str clock_img, GoArg.int hours, GoArg.int mins]

/-! ## polybar_out -/

/-- The ten battery glyphs of `polybar_out` (U+E242 to U+E24B). -/
def bat_icons : List String :=
  ["\uE242", "\uE243", "\uE244", "\uE245", "\uE246", "\uE247", "\uE248", "\uE249",
   "\uE24A", "\uE24B"]

/-- The default colour of `polybar_out`. -/
def color_default : String := "DFDFDF"

/-- Go `sint.Min`. -/
def sint_Min (a b : Int) : Int := if a < b then a else b

/-- Go slice indexing `bat_icons[i]`, which panics outside the slice. -/
def iconAt (i : Int) : Except Fault String :=
  if i < 0 then .error .indexOutOfRange
  else
    match bat_icons.get? i.toNat with
    | some s => .ok s
    | none => .error .indexOutOfRange

/-- The icon index `level` of the Discharging branch of `polybar_out`. -/
def dischargeLevel (val : F64) : Except Fault Int := do
  let level ← int64Of (F64.div val (F64.ofNat 10))
  pure (sint_Min level ((bat_icons.length : Int) - 1))

/-- The frames of the Unknown and Charging branch of `polybar_out`, one
line per icon (the sleep between two frames has no counterpart here). -/
def animation (color : String) (val : F64) : List String → Except Fault (List String)
  | [] => .ok []
  | icon :: rest => do
    let line ← Sprintf "%%\x7bF#%v\x7d %s %%\x7bF#%v\x7d%.2f%%\n"
      [GoArg.str color, GoArg.str icon, GoArg.str color_default, GoArg.f64 val]
    let more ← animation color val rest
    pure (line :: more)

/-- The Go function `polybar_out`, as the list of strings it writes to
standard output, with `flagdebug` off. -/
def polybar_out (val : F64) (state : Int) (timeRem : String) : Except Fault (List String) :=
  let color := get_color val
  if state = 1 then do
    let icon ← iconAt 0
    let line ← Sprintf "%%\x7bF#%v\x7d %v %%\x7bF#%v\x7d%.2f%%\n"
      [GoArg.str color, GoArg.str icon, GoArg.str color_default, GoArg.f64 val]
    pure [line]
  else if state = 2 then do
    let icon ← iconAt 9
    let line ← Sprintf "%%\x7bF#%v\x7d %v %%\x7bF#%v\x7d%.2f%%\n"
      [GoArg.str color, GoArg.str icon, GoArg.str color_default, GoArg.f64 val]
    pure [line]
  else if state = 0 ∨ state = 3 then
    (if !F64.isNaN val then animation color val bat_icons else .ok [])
  else if state = 4 then
    (if !F64.isNaN val then do
      let level ← dischargeLevel val
      let icon ← iconAt level
      let line ← Sprintf "%%\x7bF#%v\x7d %s %%\x7bF#%v\x7d%.2f%% %.2f%s\n"
        [GoArg.str color, GoArg.str icon, GoArg.str color_default, GoArg.f64 val,
         GoArg.str timeRem]
      pure [line]
    else .ok [])
  else .ok []

/-! ## main -/

/-- A reading of `battery.Battery`, with the fields `main` uses. -/
structure Battery where
  State : Int
  Current : F64
  Full : F64
  ChargeRate : F64
  deriving DecidableEq

/-- The command line flags the notification policy reads. -/
structure Flags where
  flagnotifyonce : Bool
  flagthr : Int
  deriving DecidableEq

/-- The constant `0.01` of `main` as a float64. -/
def c001 : F64 := F64.round false 1 100 0

/-- The variable `timeDur` of `main` after the switch on the state. -/
def timeDur (b : Battery) : F64 :=
  if b.State = 3 then
    (if F64.ne b.ChargeRate (F64.ofNat 0) then F64.div (F64.sub b.Full b.Current) b.ChargeRate
     else F64.ofNat 0)
  else if b.State = 4 then
    (if F64.ne b.ChargeRate (F64.ofNat 0) then F64.div b.Current b.ChargeRate
     else F64.ofNat 0)
  else F64.ofNat 0

/-- The variable `percent` of `main`. -/
def percentOf (b : Battery) : F64 :=
  let percent := F64.div b.Current (F64.mul b.Full c001)
  if F64.gt percent (F64.ofNat 100) then F64.ofNat 100 else percent

/-- The notification policy of one pass of the loop body of `main`: whether
`notify_send` is called, and `notifiedLowBatt` afterwards. -/
def notifyStep (fl : Flags) (notifiedLowBatt : Bool) (b : Battery) : Bool × Bool :=
  let percent := percentOf b
  let fire : Bool :=
    (F64.lt percent (F64.ofInt fl.flagthr) && decide (b.State ≠ 3)) &&
      ((fl.flagnotifyonce && !notifiedLowBatt) || !fl.flagnotifyonce)
  let n1 := if fire then true else notifiedLowBatt
  let n2 := if b.State = 2 ∧ fl.flagnotifyonce = true then false else n1
  (fire, n2)

/-- The policy run over successive readings: for each poll whether a
notification was sent, and the flag at the end. -/
def runPolls (fl : Flags) : Bool → List Battery → List Bool × Bool
  | n, [] => ([], n)
  | n, b :: bs =>
    let r := notifyStep fl n b
    let rest := runPolls fl r.2 bs
    (r.1 :: rest.1, rest.2)

/-- The flag `notifiedLowBatt` after the readings have been polled. -/
def flagAfter (fl : Flags) (n : Bool) (bs : List Battery) : Bool :=
  (runPolls fl n bs).2

end PolybarAB

namespace PolybarAB

/-! ## Comparisons and the rational value -/

theorem F64.two_zpow_pos (k : Int) : (0 : ℚ) < (2 : ℚ) ^ k := by
  positivity

theorem F64.scaled_cast (s : Bool) (m : Nat) (e lo : Int) (h : lo ≤ e) :
    ((F64.scaled s m e lo : Int) : ℚ) = F64.val s m e / (2 : ℚ) ^ lo := by
  have hp : ((2 : ℚ) ^ (e - lo).toNat) = (2 : ℚ) ^ e / (2 : ℚ) ^ lo := by
    rw [← zpow_natCast, Int.toNat_of_nonneg (by omega), zpow_sub₀ (by norm_num)]
  unfold F64.scaled F64.val
  cases s <;> simp [hp] <;> ring

theorem F64.le_fin_iff (s1 : Bool) (m1 : Nat) (e1 : Int) (s2 : Bool) (m2 : Nat) (e2 : Int) :
    F64.le (F64.fin s1 m1 e1) (F64.fin s2 m2 e2) = true ↔ F64.val s1 m1 e1 ≤ F64.val s2 m2 e2 := by
  have h1 := F64.scaled_cast s1 m1 e1 (min e1 e2) (min_le_left _ _)
  have h2 := F64.scaled_cast s2 m2 e2 (min e1 e2) (min_le_right _ _)
  have hp := F64.two_zpow_pos (min e1 e2)
  simp only [F64.le, decide_eq_true_eq]
  rw [← @Int.cast_le ℚ, h1, h2, div_le_div_iff_of_pos_right hp]

theorem F64.lt_fin_iff (s1 : Bool) (m1 : Nat) (e1 : Int) (s2 : Bool) (m2 : Nat) (e2 : Int) :
    F64.lt (F64.fin s1 m1 e1) (F64.fin s2 m2 e2) = true ↔ F64.val s1 m1 e1 < F64.val s2 m2 e2 := by
  have h1 := F64.scaled_cast s1 m1 e1 (min e1 e2) (min_le_left _ _)
  have h2 := F64.scaled_cast s2 m2 e2 (min e1 e2) (min_le_right _ _)
  have hp := F64.two_zpow_pos (min e1 e2)
  simp only [F64.lt, decide_eq_true_eq]
  rw [← @Int.cast_lt ℚ, h1, h2, div_lt_div_iff_of_pos_right hp]

theorem F64.eq_fin_iff (s1 : Bool) (m1 : Nat) (e1 : Int) (s2 : Bool) (m2 : Nat) (e2 : Int) :
    F64.eq (F64.fin s1 m1 e1) (F64.fin s2 m2 e2) = true ↔ F64.val s1 m1 e1 = F64.val s2 m2 e2 := by
  have h1 := F64.scaled_cast s1 m1 e1 (min e1 e2) (min_le_left _ _)
  have h2 := F64.scaled_cast s2 m2 e2 (min e1 e2) (min_le_right _ _)
  have hp := F64.two_zpow_pos (min e1 e2)
  simp only [F64.eq, decide_eq_true_eq]
  rw [← @Int.cast_inj ℚ, h1, h2, div_left_inj' hp.ne']

theorem F64.val_ofNat (n : Nat) : F64.val false n 0 = (n : ℚ) := by
  simp [F64.val]

end PolybarAB

namespace PolybarAB

/-! ## The notification policy -/

theorem runPolls_length (fl : Flags) (n : Bool) (bs : List Battery) :
    (runPolls fl n bs).1.length = bs.length := by
  induction bs generalizing n with
  | nil => rfl
  | cons b bs ih => simp [runPolls, ih]

theorem runPolls_append (fl : Flags) (n : Bool) (xs ys : List Battery) :
    runPolls fl n (xs ++ ys) =
      ((runPolls fl n xs).1 ++ (runPolls fl (runPolls fl n xs).2 ys).1,
        (runPolls fl (runPolls fl n xs).2 ys).2) := by
  induction xs generalizing n with
  | nil => simp [runPolls]
  | cons b bs ih => simp [runPolls, ih]

theorem notifyStep_once_set (thr : Int) (b : Battery) (h : b.State ≠ 2) :
    notifyStep ⟨true, thr⟩ true b = (false, true) := by
  simp [notifyStep, h]

theorem notifyStep_once_fire (thr : Int) (n : Bool) (b : Battery) (h : b.State ≠ 2)
    (hf : (notifyStep ⟨true, thr⟩ n b).1 = true) : (notifyStep ⟨true, thr⟩ n b).2 = true := by
  simp only [notifyStep] at hf ⊢
  simp only [hf, if_true]
  simp [h]

theorem runPolls_once_set (thr : Int) (run : List Battery) (h : ∀ b ∈ run, b.State ≠ 2) :
    runPolls ⟨true, thr⟩ true run = (List.replicate run.length false, true) := by
  induction run with
  | nil => rfl
  | cons b bs ih =>
    have hb : b.State ≠ 2 := h b (List.mem_cons_self _ _)
    have hbs : ∀ x ∈ bs, x.State ≠ 2 := fun x hx => h x (List.mem_cons_of_mem _ hx)
    simp [runPolls, notifyStep_once_set thr b hb, ih hbs, List.replicate_succ]

theorem runPolls_once_count (thr : Int) (n : Bool) (run : List Battery)
    (h : ∀ b ∈ run, b.State ≠ 2) : (runPolls ⟨true, thr⟩ n run).1.count true ≤ 1 := by
  induction run generalizing n with
  | nil => simp [runPolls]
  | cons b bs ih =>
    have hb : b.State ≠ 2 := h b (List.mem_cons_self _ _)
    have hbs : ∀ x ∈ bs, x.State ≠ 2 := fun x hx => h x (List.mem_cons_of_mem _ hx)
    cases hf : (notifyStep ⟨true, thr⟩ n b).1 with
    | false =>
      have := ih (notifyStep ⟨true, thr⟩ n b).2 hbs
      simpa [runPolls, hf] using this
    | true =>
      have h2 := notifyStep_once_fire thr n b hb hf
      simp [runPolls, hf, h2, runPolls_once_set thr bs hbs, List.count_replicate]

/-- C9: in notify-once mode, a run of consecutive polls without a Full
reading, anywhere in a sequence of readings, holds at most one poll at which
a notification is sent; and if the flag is set when the run starts it is
still set when the run ends, with no notification sent during the run. -/
theorem notify_once_at_most_once_per_run (thr : Int) (n0 : Bool)
    (before run after : List Battery) (hrun : ∀ b ∈ run, b.State ≠ 2) :
    ((((runPolls ⟨true, thr⟩ n0 (before ++ run ++ after)).1.drop before.length).take
        run.length).count true ≤ 1) ∧
    (flagAfter ⟨true, thr⟩ n0 before = true →
      flagAfter ⟨true, thr⟩ n0 (before ++ run) = true ∧
      ((runPolls ⟨true, thr⟩ n0 (before ++ run)).1.drop before.length).count true = 0) := by
  constructor
  · rw [List.append_assoc, runPolls_append, runPolls_append]
    simp only []
    rw [List.drop_left' (runPolls_length _ _ _), List.take_left' (runPolls_length _ _ _)]
    exact runPolls_once_count thr _ run hrun
  · intro hset
    unfold flagAfter at hset ⊢
    rw [runPolls_append]
    simp only []
    rw [List.drop_left' (runPolls_length _ _ _), hset, runPolls_once_set thr run hrun]
    simp [List.count_replicate]

/-- Witness of C9: two discharging polls after a Full one. -/
theorem notify_once_at_most_once_per_run_witness :
    ((((runPolls ⟨true, 10⟩ false
        ([⟨2, F64.ofNat 100, F64.ofNat 100, F64.ofNat 0⟩] ++
          [⟨4, F64.ofNat 5, F64.ofNat 100, F64.ofNat 1⟩,
           ⟨4, F64.ofNat 4, F64.ofNat 100, F64.ofNat 1⟩] ++ [])).1.drop 1).take 2).count true
        ≤ 1) ∧
    (flagAfter ⟨true, 10⟩ false [⟨2, F64.ofNat 100, F64.ofNat 100, F64.ofNat 0⟩] = true →
      flagAfter ⟨true, 10⟩ false
        ([⟨2, F64.ofNat 100, F64.ofNat 100, F64.ofNat 0⟩] ++
          [⟨4, F64.ofNat 5, F64.ofNat 100, F64.ofNat 1⟩,
           ⟨4, F64.ofNat 4, F64.ofNat 100, F64.ofNat 1⟩]) = true ∧
      ((runPolls ⟨true, 10⟩ false
        ([⟨2, F64.ofNat 100, F64.ofNat 100, F64.ofNat 0⟩] ++
          [⟨4, F64.ofNat 5, F64.ofNat 100, F64.ofNat 1⟩,
           ⟨4, F64.ofNat 4, F64.ofNat 100, F64.ofNat 1⟩])).1.drop 1).count true = 0) :=
  notify_once_at_most_once_per_run 10 false
    [⟨2, F64.ofNat 100, F64.ofNat 100, F64.ofNat 0⟩]
    [⟨4, F64.ofNat 5, F64.ofNat 100, F64.ofNat 1⟩, ⟨4, F64.ofNat 4, F64.ofNat 100, F64.ofNat 1⟩]
    [] (by decide)

/-- C3: a reading in the Charging state sends no notification and leaves the
flag as it was, whatever the percent, the threshold, the mode and the flag. -/
theorem charging_never_notifies (fl : Flags) (n : Bool) (b : Battery) (h : b.State = 3) :
    notifyStep fl n b = (false, n) := by
  simp [notifyStep, h]

/-- Witness of C3: a charging battery at 1 percent. -/
theorem charging_never_notifies_witness :
    notifyStep ⟨true, 10⟩ false ⟨3, F64.ofNat 1, F64.ofNat 100, F64.ofNat 1⟩ = (false, false) :=
  charging_never_notifies ⟨true, 10⟩ false ⟨3, F64.ofNat 1, F64.ofNat 100, F64.ofNat 1⟩ rfl

end PolybarAB

namespace PolybarAB

theorem ofInt_ten : F64.ofInt 10 = F64.fin false 5629499534213120 (-49) := by decide

theorem lt_ten_of_eq_five (p : F64) (h : F64.eq p (F64.ofNat 5) = true) :
    F64.lt p (F64.ofInt 10) = true := by
  rw [ofInt_ten]
  cases p with
  | nan => simp [F64.eq] at h
  | inf s => simp [F64.eq, F64.ofNat] at h
  | fin s m e =>
    rw [F64.ofNat, F64.eq_fin_iff, F64.val_ofNat] at h
    rw [F64.lt_fin_iff, h]
    norm_num [F64.val]

theorem notifyStep_low (once : Bool) (n : Bool) (b : Battery) (hs : b.State = 4)
    (hp : F64.eq (percentOf b) (F64.ofNat 5) = true) :
    notifyStep ⟨once, 10⟩ n b = (!once || !n, true || n) := by
  have h := lt_ten_of_eq_five _ hp
  simp only [notifyStep, h, hs]
  cases once <;> cases n <;> simp

theorem notifyStep_full (once : Bool) (n : Bool) (b : Battery) (hs : b.State = 2)
    (hp : F64.lt (percentOf b) (F64.ofInt 10) = false) :
    notifyStep ⟨once, 10⟩ n b = (false, !once && n) := by
  simp only [notifyStep, hp, hs]
  cases once <;> cases n <;> simp

/-- C1: in notify-once mode with threshold 10 and the flag clear at the start,
the readings Discharging at 5 percent, Discharging at 5 percent, Full at a
percent not below the threshold, Discharging at 5 percent send a
notification at polls 1 and 4 only, two in all, and the flag is clear
after poll 3. -/
theorem notify_once_hysteresis (r1 r2 r3 r4 : Battery)
    (s1 : r1.State = 4) (p1 : F64.eq (percentOf r1) (F64.ofNat 5) = true)
    (s2 : r2.State = 4) (p2 : F64.eq (percentOf r2) (F64.ofNat 5) = true)
    (s3 : r3.State = 2) (p3 : F64.lt (percentOf r3) (F64.ofInt 10) = false)
    (s4 : r4.State = 4) (p4 : F64.eq (percentOf r4) (F64.ofNat 5) = true) :
    (runPolls ⟨true, 10⟩ false [r1, r2, r3, r4]).1 = [true, false, false, true] ∧
    (runPolls ⟨true, 10⟩ false [r1, r2, r3, r4]).1.count true = 2 ∧
    flagAfter ⟨true, 10⟩ false [r1, r2, r3] = false := by
  simp [runPolls, flagAfter, notifyStep_low _ _ _ s1 p1, notifyStep_low _ _ _ s2 p2,
    notifyStep_full _ _ _ s3 p3, notifyStep_low _ _ _ s4 p4]

/-- Witness of C1: a battery of capacity 100 holding 5, then full. -/
theorem notify_once_hysteresis_witness :
    (runPolls ⟨true, 10⟩ false
      [⟨4, F64.ofNat 5, F64.ofNat 100, F64.ofNat 1⟩, ⟨4, F64.ofNat 5, F64.ofNat 100, F64.ofNat 1⟩,
       ⟨2, F64.ofNat 100, F64.ofNat 100, F64.ofNat 0⟩,
       ⟨4, F64.ofNat 5, F64.ofNat 100, F64.ofNat 1⟩]).1 = [true, false, false, true] ∧
    (runPolls ⟨true, 10⟩ false
      [⟨4, F64.ofNat 5, F64.ofNat 100, F64.ofNat 1⟩, ⟨4, F64.ofNat 5, F64.ofNat 100, F64.ofNat 1⟩,
       ⟨2, F64.ofNat 100, F64.ofNat 100, F64.ofNat 0⟩,
       ⟨4, F64.ofNat 5, F64.ofNat 100, F64.ofNat 1⟩]).1.count true = 2 ∧
    flagAfter ⟨true, 10⟩ false
      [⟨4, F64.ofNat 5, F64.ofNat 100, F64.ofNat 1⟩, ⟨4, F64.ofNat 5, F64.ofNat 100, F64.ofNat 1⟩,
       ⟨2, F64.ofNat 100, F64.ofNat 100, F64.ofNat 0⟩] = false :=
  notify_once_hysteresis ⟨4, F64.ofNat 5, F64.ofNat 100, F64.ofNat 1⟩
    ⟨4, F64.ofNat 5, F64.ofNat 100, F64.ofNat 1⟩ ⟨2, F64.ofNat 100, F64.ofNat 100, F64.ofNat 0⟩
    ⟨4, F64.ofNat 5, F64.ofNat 100, F64.ofNat 1⟩
    rfl (by decide) rfl (by decide) rfl (by decide) rfl (by decide)

theorem runPolls_always_get (thr : Int) (n0 : Bool) (bs : List Battery) (i : Nat) (b : Battery)
    (hb : bs.get? i = some b) :
    (runPolls ⟨false, thr⟩ n0 bs).1.get? i =
      some (F64.lt (percentOf b) (F64.ofInt thr) && decide (b.State ≠ 3)) := by
  induction bs generalizing n0 i with
  | nil => simp at hb
  | cons x xs ih =>
    cases i with
    | zero =>
      simp only [List.get?_cons_zero, Option.some.injEq] at hb
      subst hb
      simp [runPolls, notifyStep]
    | succ k =>
      simp only [List.get?_cons_succ] at hb
      simpa [runPolls] using ih _ k hb

/-- C2: with notify-once off, whatever the readings and the flag at the
start, the poll of any reading of the sequence sends a notification exactly
when its percent is below the threshold and its state is not Charging; the
readings Discharging at 5 percent, Discharging at 5 percent, Full (at a
percent not below the threshold), Discharging at 5 percent with threshold 10
send 3 notifications. -/
theorem notify_every_poll (thr : Int) (n0 : Bool) (bs : List Battery) (i : Nat) (b : Battery)
    (hb : bs.get? i = some b) (m0 : Bool) (r1 r2 r3 r4 : Battery)
    (s1 : r1.State = 4) (p1 : F64.eq (percentOf r1) (F64.ofNat 5) = true)
    (s2 : r2.State = 4) (p2 : F64.eq (percentOf r2) (F64.ofNat 5) = true)
    (s3 : r3.State = 2) (p3 : F64.lt (percentOf r3) (F64.ofInt 10) = false)
    (s4 : r4.State = 4) (p4 : F64.eq (percentOf r4) (F64.ofNat 5) = true) :
    ((runPolls ⟨false, thr⟩ n0 bs).1.get? i = some true ↔
      (F64.lt (percentOf b) (F64.ofInt thr) = true ∧ b.State ≠ 3)) ∧
    (runPolls ⟨false, thr⟩ n0 bs).1.length = bs.length ∧
    (runPolls ⟨false, 10⟩ m0 [r1, r2, r3, r4]).1.count true = 3 := by
  refine ⟨?_, runPolls_length _ _ _, ?_⟩
  · rw [runPolls_always_get thr n0 bs i b hb]
    simp
  · simp [runPolls, notifyStep_low _ _ _ s1 p1, notifyStep_low _ _ _ s2 p2,
      notifyStep_full _ _ _ s3 p3, notifyStep_low _ _ _ s4 p4]

/-- Witness of C2: the third poll of a sequence, and the four readings. -/
theorem notify_every_poll_witness :
    ((runPolls ⟨false, 10⟩ true
        [⟨4, F64.ofNat 5, F64.ofNat 100, F64.ofNat 1⟩, ⟨3, F64.ofNat 5, F64.ofNat 100, F64.ofNat 1⟩,
         ⟨4, F64.ofNat 7, F64.ofNat 100, F64.ofNat 1⟩]).1.get? 2 = some true ↔
      (F64.lt (percentOf ⟨4, F64.ofNat 7, F64.ofNat 100, F64.ofNat 1⟩) (F64.ofInt 10) = true ∧
        (⟨4, F64.ofNat 7, F64.ofNat 100, F64.ofNat 1⟩ : Battery).State ≠ 3)) ∧
    (runPolls ⟨false, 10⟩ true
        [⟨4, F64.ofNat 5, F64.ofNat 100, F64.ofNat 1⟩, ⟨3, F64.ofNat 5, F64.ofNat 100, F64.ofNat 1⟩,
         ⟨4, F64.ofNat 7, F64.ofNat 100, F64.ofNat 1⟩]).1.length =
      [(⟨4, F64.ofNat 5, F64.ofNat 100, F64.ofNat 1⟩ : Battery),
        ⟨3, F64.ofNat 5, F64.ofNat 100, F64.ofNat 1⟩,
        ⟨4, F64.ofNat 7, F64.ofNat 100, F64.ofNat 1⟩].length ∧
    (runPolls ⟨false, 10⟩ false
      [⟨4, F64.ofNat 5, F64.ofNat 100, F64.ofNat 1⟩, ⟨4, F64.ofNat 5, F64.ofNat 100, F64.ofNat 1⟩,
       ⟨2, F64.ofNat 100, F64.ofNat 100, F64.ofNat 0⟩,
       ⟨4, F64.ofNat 5, F64.ofNat 100, F64.ofNat 1⟩]).1.count true = 3 :=
  notify_every_poll 10 true
    [⟨4, F64.ofNat 5, F64.ofNat 100, F64.ofNat 1⟩, ⟨3, F64.ofNat 5, F64.ofNat 100, F64.ofNat 1⟩,
     ⟨4, F64.ofNat 7, F64.ofNat 100, F64.ofNat 1⟩] 2
    ⟨4, F64.ofNat 7, F64.ofNat 100, F64.ofNat 1⟩ rfl false
    ⟨4, F64.ofNat 5, F64.ofNat 100, F64.ofNat 1⟩
    ⟨4, F64.ofNat 5, F64.ofNat 100, F64.ofNat 1⟩ ⟨2, F64.ofNat 100, F64.ofNat 100, F64.ofNat 0⟩
    ⟨4, F64.ofNat 5, F64.ofNat 100, F64.ofNat 1⟩
    rfl (by decide) rfl (by decide) rfl (by decide) rfl (by decide)

end PolybarAB

namespace PolybarAB

/-! ## get_color -/

theorem F64.le_ofNat_iff (s : Bool) (m : Nat) (e : Int) (n : Nat) :
    F64.le (F64.fin s m e) (F64.ofNat n) = true ↔ F64.val s m e ≤ (n : ℚ) := by
  rw [F64.ofNat, F64.le_fin_iff, F64.val_ofNat]

theorem F64.ofNat_le_iff (s : Bool) (m : Nat) (e : Int) (n : Nat) :
    F64.le (F64.ofNat n) (F64.fin s m e) = true ↔ (n : ℚ) ≤ F64.val s m e := by
  rw [F64.ofNat, F64.le_fin_iff, F64.val_ofNat]

theorem F64.fin_of_range (p : F64) (h0 : F64.le (F64.ofNat 0) p = true)
    (h100 : F64.le p (F64.ofNat 100) = true) :
    ∃ s m e, p = F64.fin s m e ∧ 0 ≤ F64.val s m e ∧ F64.val s m e ≤ 100 := by
  cases p with
  | nan => simp [F64.le, F64.ofNat] at h0
  | inf s => cases s <;> simp [F64.le, F64.ofNat] at h0 h100
  | fin s m e =>
    refine ⟨s, m, e, rfl, ?_, ?_⟩
    · simpa using (F64.ofNat_le_iff s m e 0).1 h0
    · simpa using (F64.le_ofNat_iff s m e 100).1 h100

theorem get_color_cases (p : F64) (h100 : F64.le p (F64.ofNat 100) = true) :
    ∃ k : Nat, 1 ≤ k ∧ k ≤ 20 ∧ F64.le p (F64.ofNat (5 * k)) = true ∧
      (k = 1 ∨ ¬ F64.le p (F64.ofNat (5 * (k - 1))) = true) ∧
      colorTable.get? (k - 1) = some (get_color p) := by
  unfold get_color
  by_cases c1 : F64.le p (F64.ofNat 5) = true
  · rw [if_pos c1]
    exact ⟨1, by decide, by decide, c1, Or.inl rfl, rfl⟩
  rw [if_neg c1]
  by_cases c2 : F64.le p (F64.ofNat 10) = true
  · rw [if_pos c2]
    exact ⟨2, by decide, by decide, c2, Or.inr c1, rfl⟩
  rw [if_neg c2]
  by_cases c3 : F64.le p (F64.ofNat 15) = true
  · rw [if_pos c3]
    exact ⟨3, by decide, by decide, c3, Or.inr c2, rfl⟩
  rw [if_neg c3]
  by_cases c4 : F64.le p (F64.ofNat 20) = true
  · rw [if_pos c4]
    exact ⟨4, by decide, by decide, c4, Or.inr c3, rfl⟩
  rw [if_neg c4]
  by_cases c5 : F64.le p (F64.ofNat 25) = true
  · rw [if_pos c5]
    exact ⟨5, by decide, by decide, c5, Or.inr c4, rfl⟩
  rw [if_neg c5]
  by_cases c6 : F64.le p (F64.ofNat 30) = true
  · rw [if_pos c6]
    exact ⟨6, by decide, by decide, c6, Or.inr c5, rfl⟩
  rw [if_neg c6]
  by_cases c7 : F64.le p (F64.ofNat 35) = true
  · rw [if_pos c7]
    exact ⟨7, by decide, by decide, c7, Or.inr c6, rfl⟩
  rw [if_neg c7]
  by_cases c8 : F64.le p (F64.ofNat 40) = true
  · rw [if_pos c8]
    exact ⟨8, by decide, by decide, c8, Or.inr c7, rfl⟩
  rw [if_neg c8]
  by_cases c9 : F64.le p (F64.ofNat 45) = true
  · rw [if_pos c9]
    exact ⟨9, by decide, by decide, c9, Or.inr c8, rfl⟩
  rw [if_neg c9]
  by_cases c10 : F64.le p (F64.ofNat 50) = true
  · rw [if_pos c10]
    exact ⟨10, by decide, by decide, c10, Or.inr c9, rfl⟩
  rw [if_neg c10]
  by_cases c11 : F64.le p (F64.ofNat 55) = true
  · rw [if_pos c11]
    exact ⟨11, by decide, by decide, c11, Or.inr c10, rfl⟩
  rw [if_neg c11]
  by_cases c12 : F64.le p (F64.ofNat 60) = true
  · rw [if_pos c12]
    exact ⟨12, by decide, by decide, c12, Or.inr c11, rfl⟩
  rw [if_neg c12]
  by_cases c13 : F64.le p (F64.ofNat 65) = true
  · rw [if_pos c13]
    exact ⟨13, by decide, by decide, c13, Or.inr c12, rfl⟩
  rw [if_neg c13]
  by_cases c14 : F64.le p (F64.ofNat 70) = true
  · rw [if_pos c14]
    exact ⟨14, by decide, by decide, c14, Or.inr c13, rfl⟩
  rw [if_neg c14]
  by_cases c15 : F64.le p (F64.ofNat 75) = true
  · rw [if_pos c15]
    exact ⟨15, by decide, by decide, c15, Or.inr c14, rfl⟩
  rw [if_neg c15]
  by_cases c16 : F64.le p (F64.ofNat 80) = true
  · rw [if_pos c16]
    exact ⟨16, by decide, by decide, c16, Or.inr c15, rfl⟩
  rw [if_neg c16]
  by_cases c17 : F64.le p (F64.ofNat 85) = true
  · rw [if_pos c17]
    exact ⟨17, by decide, by decide, c17, Or.inr c16, rfl⟩
  rw [if_neg c17]
  by_cases c18 : F64.le p (F64.ofNat 90) = true
  · rw [if_pos c18]
    exact ⟨18, by decide, by decide, c18, Or.inr c17, rfl⟩
  rw [if_neg c18]
  by_cases c19 : F64.le p (F64.ofNat 95) = true
  · rw [if_pos c19]
    exact ⟨19, by decide, by decide, c19, Or.inr c18, rfl⟩
  rw [if_neg c19]
  by_cases c20 : F64.le p (F64.ofNat 100) = true
  · rw [if_pos c20]
    exact ⟨20, by decide, by decide, c20, Or.inr c19, rfl⟩
  rw [if_neg c20]
  exact absurd h100 c20

theorem get_color_band (p : F64) (h0 : F64.le (F64.ofNat 0) p = true)
    (h100 : F64.le p (F64.ofNat 100) = true) :
    ∃ k : Nat, 1 ≤ k ∧ k ≤ 20 ∧ F64.le p (F64.ofNat (5 * k)) = true ∧
      (∀ j : Nat, 1 ≤ j → F64.le p (F64.ofNat (5 * j)) = true → k ≤ j) ∧
      colorTable.get? (k - 1) = some (get_color p) := by
  obtain ⟨k, hk1, hk20, hle, hgt, hcol⟩ := get_color_cases p h100
  refine ⟨k, hk1, hk20, hle, ?_, hcol⟩
  obtain ⟨s, m, e, rfl, _, _⟩ := F64.fin_of_range p h0 h100
  intro j hj hpj
  rw [F64.le_ofNat_iff] at hpj
  rcases hgt with h1 | hgt
  · omega
  · rw [F64.le_ofNat_iff, not_le] at hgt
    have : ((5 * (k - 1) : Nat) : ℚ) < ((5 * j : Nat) : ℚ) := lt_of_lt_of_le hgt hpj
    have h2 : 5 * (k - 1) < 5 * j := by exact_mod_cast this
    omega

theorem colorTable_indexOf (k : Nat) (c : String) (hk1 : 1 ≤ k) (hk : k ≤ 20)
    (h : colorTable.get? (k - 1) = some c) : colorTable.indexOf c = k - 1 := by
  interval_cases k <;> simp [colorTable] at h <;> subst h <;> decide

theorem F64.le_trans_range (p q : F64) (n : Nat) (hpq : F64.le p q = true)
    (hq : F64.le q (F64.ofNat n) = true) : F64.le p (F64.ofNat n) = true := by
  cases p with
  | nan => simp [F64.le] at hpq
  | inf s =>
    cases s
    · cases q with
      | nan => simp [F64.le] at hpq
      | inf t => cases t <;> simp_all [F64.le, F64.ofNat]
      | fin t m2 e2 => simp [F64.le] at hpq
    · simp [F64.le, F64.ofNat]
  | fin s m e =>
    cases q with
    | nan => simp [F64.le] at hq
    | inf t => cases t <;> simp_all [F64.le, F64.ofNat]
    | fin t m2 e2 =>
      rw [F64.le_fin_iff] at hpq
      rw [F64.le_ofNat_iff] at hq ⊢
      exact le_trans hpq hq

/-- C5: on the percents from 0 to 100 `get_color` returns the k-th of the
twenty listed colours, k being the least of 1..20 with p ≤ 5k (upper band
edge included); the band number does not decrease when the percent grows;
`get_color 5.0` is FF0000 and `get_color 100.0` is 00FF00. -/
theorem get_color_step_function (p q : F64)
    (hp0 : F64.le (F64.ofNat 0) p = true) (hp100 : F64.le p (F64.ofNat 100) = true)
    (hq0 : F64.le (F64.ofNat 0) q = true) (hq100 : F64.le q (F64.ofNat 100) = true)
    (hpq : F64.le p q = true) :
    (∃ k : Nat, 1 ≤ k ∧ k ≤ 20 ∧ F64.le p (F64.ofNat (5 * k)) = true ∧
      (∀ j : Nat, 1 ≤ j → F64.le p (F64.ofNat (5 * j)) = true → k ≤ j) ∧
      colorTable.get? (k - 1) = some (get_color p)) ∧
    colorTable.indexOf (get_color p) ≤ colorTable.indexOf (get_color q) ∧
    colorTable.length = 20 ∧
    get_color (F64.ofNat 5) = "FF0000" ∧ get_color (F64.ofNat 100) = "00FF00" := by
  obtain ⟨k, hk1, hk20, hk, hleast, hcol⟩ := get_color_band p hp0 hp100
  obtain ⟨l, hl1, hl20, hl, _, hcolq⟩ := get_color_band q hq0 hq100
  refine ⟨⟨k, hk1, hk20, hk, hleast, hcol⟩, ?_, rfl, by decide, by decide⟩
  rw [colorTable_indexOf k _ hk1 hk20 hcol, colorTable_indexOf l _ hl1 hl20 hcolq]
  have := hleast l hl1 (F64.le_trans_range p q _ hpq hl)
  omega

/-- Witness of C5: the percents 12.5 and 50. -/
theorem get_color_step_function_witness :
    (∃ k : Nat, 1 ≤ k ∧ k ≤ 20 ∧ F64.le (F64.fin false 25 (-1)) (F64.ofNat (5 * k)) = true ∧
      (∀ j : Nat, 1 ≤ j → F64.le (F64.fin false 25 (-1)) (F64.ofNat (5 * j)) = true → k ≤ j) ∧
      colorTable.get? (k - 1) = some (get_color (F64.fin false 25 (-1)))) ∧
    colorTable.indexOf (get_color (F64.fin false 25 (-1))) ≤
      colorTable.indexOf (get_color (F64.ofNat 50)) ∧
    colorTable.length = 20 ∧
    get_color (F64.ofNat 5) = "FF0000" ∧ get_color (F64.ofNat 100) = "00FF00" :=
  get_color_step_function (F64.fin false 25 (-1)) (F64.ofNat 50)
    (by decide) (by decide) (by decide) (by decide) (by decide)

end PolybarAB

namespace PolybarAB

/-! ## Rounding to binary64 -/

theorem F64.log2Fuel_spec (fuel n : Nat) (hn : 0 < n) (hf : n ≤ fuel) :
    2 ^ F64.log2Fuel fuel n ≤ n ∧ n < 2 ^ (F64.log2Fuel fuel n + 1) := by
  induction fuel generalizing n with
  | zero => omega
  | succ f ih =>
    unfold F64.log2Fuel
    by_cases h2 : 2 ≤ n
    · rw [if_pos h2]
      have hpos : 0 < n / 2 := Nat.div_pos h2 (by norm_num)
      have hle : n / 2 ≤ f := by omega
      obtain ⟨h1, h3⟩ := ih (n / 2) hpos hle
      constructor
      · rw [pow_succ]; omega
      · rw [pow_succ]; omega
    · rw [if_neg h2]
      have : n = 1 := by omega
      subst this
      simp

theorem F64.ilog2_spec (n : Nat) (hn : 0 < n) :
    2 ^ F64.ilog2 n ≤ n ∧ n < 2 ^ (F64.ilog2 n + 1) :=
  F64.log2Fuel_spec n n hn le_rfl

theorem F64.ilog2Frac_spec (N D : Nat) (hN : 0 < N) (hD : 0 < D) :
    (2 : ℚ) ^ F64.ilog2Frac N D ≤ (N : ℚ) / D ∧
      (N : ℚ) / D < (2 : ℚ) ^ (F64.ilog2Frac N D + 1) := by
  obtain ⟨n1, n2⟩ := F64.ilog2_spec N hN
  obtain ⟨d1, d2⟩ := F64.ilog2_spec D hD
  have hDq : (0 : ℚ) < D := by exact_mod_cast hD
  have hNq : (0 : ℚ) < N := by exact_mod_cast hN
  have n1q : (2 : ℚ) ^ (F64.ilog2 N : ℤ) ≤ N := by rw [zpow_natCast]; exact_mod_cast n1
  have n2q : (N : ℚ) < (2 : ℚ) ^ ((F64.ilog2 N : ℤ) + 1) := by
    rw [zpow_add_one₀ (by norm_num), zpow_natCast, ← pow_succ]; exact_mod_cast n2
  have d1q : (2 : ℚ) ^ (F64.ilog2 D : ℤ) ≤ D := by rw [zpow_natCast]; exact_mod_cast d1
  have d2q : (D : ℚ) < (2 : ℚ) ^ ((F64.ilog2 D : ℤ) + 1) := by
    rw [zpow_add_one₀ (by norm_num), zpow_natCast, ← pow_succ]; exact_mod_cast d2
  -- the comparison made by `ilog2Frac`, read in ℚ
  have hcmp : ∀ c : ℤ, (D * 2 ^ c.toNat ≤ N * 2 ^ (-c).toNat) ↔ (2 : ℚ) ^ c ≤ (N : ℚ) / D := by
    intro c
    rw [le_div_iff₀ hDq]
    rcases le_total 0 c with hc | hc
    · have h1 : (-c).toNat = 0 := by omega
      have h2 : ((2 : ℚ) ^ c) = ((2 ^ c.toNat : Nat) : ℚ) := by
        push_cast; rw [← zpow_natCast, Int.toNat_of_nonneg hc]
      rw [h1, h2, pow_zero, mul_one, mul_comm]
      exact_mod_cast Iff.rfl
    · have h1 : c.toNat = 0 := by omega
      have h2 : ((2 : ℚ) ^ c) = 1 / ((2 ^ (-c).toNat : Nat) : ℚ) := by
        push_cast; rw [← zpow_natCast, Int.toNat_of_nonneg (by omega), zpow_neg]; simp
      have hp : (0 : ℚ) < ((2 ^ (-c).toNat : Nat) : ℚ) := by positivity
      rw [h1, h2, pow_zero, mul_one, div_mul_eq_mul_div, one_mul, div_le_iff₀ hp]
      exact_mod_cast Iff.rfl
  have hp2 : ∀ k : ℤ, (0 : ℚ) < (2 : ℚ) ^ k := fun k => by positivity
  unfold F64.ilog2Frac
  simp only []
  set c : ℤ := (F64.ilog2 N : ℤ) - (F64.ilog2 D : ℤ) with hc
  have hlow : (2 : ℚ) ^ (c - 1) < (N : ℚ) / D := by
    rw [lt_div_iff₀ hDq]
    have : (2 : ℚ) ^ (c - 1) * (2 : ℚ) ^ ((F64.ilog2 D : ℤ) + 1) = (2 : ℚ) ^ (F64.ilog2 N : ℤ) := by
      rw [← zpow_add₀ (by norm_num)]; congr 1; omega
    calc (2 : ℚ) ^ (c - 1) * D < (2 : ℚ) ^ (c - 1) * (2 : ℚ) ^ ((F64.ilog2 D : ℤ) + 1) :=
          mul_lt_mul_of_pos_left d2q (hp2 _)
      _ = (2 : ℚ) ^ (F64.ilog2 N : ℤ) := this
      _ ≤ N := n1q
  have hhigh : (N : ℚ) / D < (2 : ℚ) ^ (c + 1) := by
    rw [div_lt_iff₀ hDq]
    have : (2 : ℚ) ^ (c + 1) * (2 : ℚ) ^ (F64.ilog2 D : ℤ) = (2 : ℚ) ^ ((F64.ilog2 N : ℤ) + 1) := by
      rw [← zpow_add₀ (by norm_num)]; congr 1; omega
    calc (N : ℚ) < (2 : ℚ) ^ ((F64.ilog2 N : ℤ) + 1) := n2q
      _ = (2 : ℚ) ^ (c + 1) * (2 : ℚ) ^ (F64.ilog2 D : ℤ) := this.symm
      _ ≤ (2 : ℚ) ^ (c + 1) * D := mul_le_mul_of_nonneg_left d1q (hp2 _).le
  by_cases hle : D * 2 ^ c.toNat ≤ N * 2 ^ (-c).toNat
  · rw [if_pos hle]
    exact ⟨(hcmp c).1 hle, hhigh⟩
  · rw [if_neg hle]
    refine ⟨hlow.le, ?_⟩
    have := (hcmp c).not.1 hle
    rw [sub_add_cancel]
    exact not_le.1 this

end PolybarAB

namespace PolybarAB

theorem F64.rheQ_bounds (x : ℚ) : ⌊x⌋ ≤ F64.rheQ x ∧ F64.rheQ x ≤ ⌊x⌋ + 1 := by
  unfold F64.rheQ
  split_ifs <;> constructor <;> omega

theorem F64.rheQ_intCast (n : ℤ) : F64.rheQ (n : ℚ) = n := by
  unfold F64.rheQ
  simp

theorem F64.rheQ_mono (x y : ℚ) (h : x ≤ y) : F64.rheQ x ≤ F64.rheQ y := by
  have hfl : ⌊x⌋ ≤ ⌊y⌋ := Int.floor_mono h
  rcases lt_or_eq_of_le hfl with hlt | heq
  · have h1 := (F64.rheQ_bounds x).2
    have h2 := (F64.rheQ_bounds y).1
    omega
  · have hx := F64.rheQ_bounds x
    unfold F64.rheQ at hx ⊢
    rw [← heq] at *
    have hxy : x - ⌊x⌋ ≤ y - ⌊x⌋ := by linarith
    split_ifs at * <;> first | omega | (exfalso; linarith)

theorem F64.rheQ_le_int (x : ℚ) (n : ℤ) (h : x ≤ n) : F64.rheQ x ≤ n := by
  have := F64.rheQ_mono x n h
  rwa [F64.rheQ_intCast] at this

theorem F64.int_le_rheQ (x : ℚ) (n : ℤ) (h : (n : ℚ) ≤ x) : n ≤ F64.rheQ x := by
  have := F64.rheQ_mono n x h
  rwa [F64.rheQ_intCast] at this

theorem F64.divRoundEven_cast (N D : Nat) (hD : 0 < D) :
    ((F64.divRoundEven N D : Nat) : ℤ) = F64.rheQ ((N : ℚ) / D) := by
  have hDq : (0 : ℚ) < D := by exact_mod_cast hD
  have hfl : ⌊(N : ℚ) / D⌋ = ((N / D : Nat) : ℤ) := by
    rw [Rat.floor_natCast_div_natCast]; simp
  have hdm : (N : ℚ) = (D : ℚ) * ((N / D : Nat) : ℚ) + ((N % D : Nat) : ℚ) := by
    exact_mod_cast (Nat.div_add_mod N D).symm
  have hfrac : (N : ℚ) / D - (((N / D : Nat) : ℤ) : ℚ) = ((N % D : Nat) : ℚ) / D := by
    rw [Int.cast_natCast]
    field_simp
    linarith
  have hlt : ((N % D : Nat) : ℚ) / D < 1 / 2 ↔ 2 * (N % D) < D := by
    rw [div_lt_div_iff₀ hDq (by norm_num), one_mul]
    constructor
    · intro h; have : ((N % D * 2 : Nat) : ℚ) < (D : ℚ) := by push_cast; linarith
      have := Nat.cast_lt.1 this; omega
    · intro h; have : ((N % D * 2 : Nat) : ℚ) < (D : ℚ) := by exact_mod_cast (by omega : N % D * 2 < D)
      push_cast at this; linarith
  have hgt : 1 / 2 < ((N % D : Nat) : ℚ) / D ↔ D < 2 * (N % D) := by
    rw [div_lt_div_iff₀ (by norm_num) hDq, one_mul]
    constructor
    · intro h; have : (D : ℚ) < ((N % D * 2 : Nat) : ℚ) := by push_cast; linarith
      have := Nat.cast_lt.1 this; omega
    · intro h; have : (D : ℚ) < ((N % D * 2 : Nat) : ℚ) := by exact_mod_cast (by omega : D < N % D * 2)
      push_cast at this; linarith
  unfold F64.rheQ F64.divRoundEven
  rw [hfl, hfrac]
  simp only [hlt, hgt]
  split_ifs <;> first | rfl | omega

end PolybarAB

namespace PolybarAB

theorem F64.log_eq_of_bounds (a : ℚ) (c : ℤ) (h1 : (2 : ℚ) ^ c ≤ a) (h2 : a < (2 : ℚ) ^ (c + 1)) :
    Int.log 2 a = c := by
  have ha : 0 < a := lt_of_lt_of_le (by positivity) h1
  have e1 : c ≤ Int.log 2 a := by
    rw [← Int.zpow_le_iff_le_log (by norm_num) ha]
    simpa using h1
  have e2 : Int.log 2 a < c + 1 := by
    rw [← Int.lt_zpow_iff_log_lt (by norm_num) ha]
    simpa using h2
  omega

theorem F64.log_bounds (a : ℚ) (ha : 0 < a) :
    (2 : ℚ) ^ Int.log 2 a ≤ a ∧ a < (2 : ℚ) ^ (Int.log 2 a + 1) := by
  constructor
  · simpa using Int.zpow_log_le_self (b := 2) (by norm_num) ha
  · simpa using Int.lt_zpow_succ_log_self (b := 2) (by norm_num) a

theorem F64.ulpExp_eq (N D : Nat) (X : Int) (hN : 0 < N) (hD : 0 < D) :
    F64.ulpExp N D X = F64.expQ ((N : ℚ) / D * (2 : ℚ) ^ X) := by
  obtain ⟨h1, h2⟩ := F64.ilog2Frac_spec N D hN hD
  have hX : (0 : ℚ) < (2 : ℚ) ^ X := by positivity
  have hlog : Int.log 2 ((N : ℚ) / D * (2 : ℚ) ^ X) = F64.ilog2Frac N D + X := by
    apply F64.log_eq_of_bounds
    · rw [zpow_add₀ (by norm_num)]
      exact mul_le_mul_of_nonneg_right h1 hX.le
    · rw [show F64.ilog2Frac N D + X + 1 = (F64.ilog2Frac N D + 1) + X by ring,
        zpow_add₀ (by norm_num)]
      exact mul_lt_mul_of_pos_right h2 hX
  unfold F64.ulpExp F64.expQ
  rw [hlog]

theorem F64.shift_cast (N D : Nat) (s : Int) (hD : 0 < D) :
    ((N * 2 ^ s.toNat : Nat) : ℚ) / ((D * 2 ^ (-s).toNat : Nat) : ℚ) =
      (N : ℚ) / D * (2 : ℚ) ^ s := by
  have hDq : (D : ℚ) ≠ 0 := by exact_mod_cast hD.ne'
  rcases le_total 0 s with hs | hs
  · have h1 : (-s).toNat = 0 := by omega
    have h2 : ((2 : ℚ) ^ s) = (2 : ℚ) ^ s.toNat := by
      rw [← zpow_natCast, Int.toNat_of_nonneg hs]
    rw [h1, h2]
    push_cast
    field_simp
  · have h1 : s.toNat = 0 := by omega
    have h2 : ((2 : ℚ) ^ s) = 1 / (2 : ℚ) ^ (-s).toNat := by
      rw [← zpow_natCast, Int.toNat_of_nonneg (by omega), zpow_neg]; simp
    rw [h1, h2]
    push_cast
    field_simp

theorem F64.roundSig_eq (N D : Nat) (X : Int) (hN : 0 < N) (hD : 0 < D) :
    ((F64.roundSig N D X : Nat) : ℤ) =
      F64.rheQ ((N : ℚ) / D * (2 : ℚ) ^ X / (2 : ℚ) ^ F64.expQ ((N : ℚ) / D * (2 : ℚ) ^ X)) := by
  unfold F64.roundSig
  simp only []
  rw [F64.divRoundEven_cast _ _ (by positivity), F64.shift_cast N D _ hD, F64.ulpExp_eq N D X hN hD,
    zpow_sub₀ (by norm_num)]
  congr 1
  ring

theorem F64.expQ_ge (a : ℚ) : -1074 ≤ F64.expQ a ∧ Int.log 2 a - 52 ≤ F64.expQ a := by
  unfold F64.expQ
  constructor
  · exact le_max_right _ _
  · exact le_max_left _ _

theorem F64.sig_le (a : ℚ) (ha : 0 < a) :
    F64.rheQ (a / (2 : ℚ) ^ F64.expQ a) ≤ 2 ^ 53 := by
  have hb := (F64.log_bounds a ha).2
  have he := (F64.expQ_ge a).2
  have hp : (0 : ℚ) < (2 : ℚ) ^ F64.expQ a := by positivity
  apply F64.rheQ_le_int
  rw [div_le_iff₀ hp]
  have : (2 : ℚ) ^ (Int.log 2 a + 1) ≤ (2 : ℚ) ^ (53 + F64.expQ a) :=
    zpow_le_zpow_right₀ (by norm_num) (by omega)
  have e53 : (2 : ℚ) ^ (53 + F64.expQ a) = 2 ^ 53 * (2 : ℚ) ^ F64.expQ a := by
    rw [zpow_add₀ (by norm_num)]; norm_num
  push_cast
  calc a ≤ (2 : ℚ) ^ (Int.log 2 a + 1) := hb.le
    _ ≤ (2 : ℚ) ^ (53 + F64.expQ a) := this
    _ = 2 ^ 53 * (2 : ℚ) ^ F64.expQ a := e53

theorem F64.sig_ge (a : ℚ) (ha : 0 < a) (he : F64.expQ a = Int.log 2 a - 52) :
    2 ^ 52 ≤ F64.rheQ (a / (2 : ℚ) ^ F64.expQ a) := by
  have hb := (F64.log_bounds a ha).1
  have hp : (0 : ℚ) < (2 : ℚ) ^ F64.expQ a := by positivity
  apply F64.int_le_rheQ
  rw [le_div_iff₀ hp]
  have : (2 : ℚ) ^ (52 + F64.expQ a) = (2 : ℚ) ^ Int.log 2 a := by
    congr 1; omega
  have e52 : (2 : ℚ) ^ (52 + F64.expQ a) = 2 ^ 52 * (2 : ℚ) ^ F64.expQ a := by
    rw [zpow_add₀ (by norm_num)]; norm_num
  push_cast
  calc 2 ^ 52 * (2 : ℚ) ^ F64.expQ a = (2 : ℚ) ^ (52 + F64.expQ a) := e52.symm
    _ = (2 : ℚ) ^ Int.log 2 a := this
    _ ≤ a := hb

theorem F64.sig_nonneg (a : ℚ) (ha : 0 < a) : 0 ≤ F64.rheQ (a / (2 : ℚ) ^ F64.expQ a) := by
  apply F64.int_le_rheQ
  push_cast
  positivity

theorem F64.rndQ_mono (a b : ℚ) (ha : 0 < a) (hab : a ≤ b) : F64.rndQ a ≤ F64.rndQ b := by
  have hb : 0 < b := lt_of_lt_of_le ha hab
  have hlog : Int.log 2 a ≤ Int.log 2 b := Int.log_mono_right ha hab
  have hexp : F64.expQ a ≤ F64.expQ b := by
    unfold F64.expQ
    exact max_le_max (by omega) le_rfl
  unfold F64.rndQ
  rcases eq_or_lt_of_le hexp with heq | hlt
  · rw [← heq]
    have hp : (0 : ℚ) < (2 : ℚ) ^ F64.expQ a := by positivity
    apply mul_le_mul_of_nonneg_right _ hp.le
    have : a / (2 : ℚ) ^ F64.expQ a ≤ b / (2 : ℚ) ^ F64.expQ a := by
      rw [div_le_div_iff_of_pos_right hp]; exact hab
    have h := F64.rheQ_mono _ _ this
    rw [heq] at h ⊢
    exact_mod_cast h
  · have hbe : F64.expQ b = Int.log 2 b - 52 := by
      have h1 := (F64.expQ_ge a).1
      unfold F64.expQ at hlt ⊢
      rcases max_cases (Int.log 2 b - 52) (-1074) with ⟨h, _⟩ | ⟨h, _⟩
      · exact h
      · rw [h] at hlt; unfold F64.expQ at h1; omega
    have h1 : ((F64.rheQ (a / (2 : ℚ) ^ F64.expQ a) : ℤ) : ℚ) ≤ 2 ^ 53 := by
      exact_mod_cast F64.sig_le a ha
    have h2 : (2 ^ 52 : ℚ) ≤ ((F64.rheQ (b / (2 : ℚ) ^ F64.expQ b) : ℤ) : ℚ) := by
      exact_mod_cast F64.sig_ge b hb hbe
    have hpa : (0 : ℚ) < (2 : ℚ) ^ F64.expQ a := by positivity
    have hpb : (0 : ℚ) < (2 : ℚ) ^ F64.expQ b := by positivity
    have hstep : (2 : ℚ) ^ (F64.expQ a + 1) ≤ (2 : ℚ) ^ F64.expQ b :=
      zpow_le_zpow_right₀ (by norm_num) (by omega)
    rw [zpow_add_one₀ (by norm_num)] at hstep
    calc ((F64.rheQ (a / (2 : ℚ) ^ F64.expQ a) : ℤ) : ℚ) * (2 : ℚ) ^ F64.expQ a
        ≤ 2 ^ 53 * (2 : ℚ) ^ F64.expQ a := mul_le_mul_of_nonneg_right h1 hpa.le
      _ = 2 ^ 52 * ((2 : ℚ) ^ F64.expQ a * 2) := by ring
      _ ≤ 2 ^ 52 * (2 : ℚ) ^ F64.expQ b := mul_le_mul_of_nonneg_left hstep (by positivity)
      _ ≤ ((F64.rheQ (b / (2 : ℚ) ^ F64.expQ b) : ℤ) : ℚ) * (2 : ℚ) ^ F64.expQ b :=
          mul_le_mul_of_nonneg_right h2 hpb.le

theorem F64.rndQ_exact (m : Nat) (e : Int) (hm0 : 0 < m) (hm : m < 2 ^ 53) (he : -1074 ≤ e) :
    F64.rndQ ((m : ℚ) * (2 : ℚ) ^ e) = (m : ℚ) * (2 : ℚ) ^ e := by
  have hmq : (0 : ℚ) < m := by exact_mod_cast hm0
  have ha : (0 : ℚ) < (m : ℚ) * (2 : ℚ) ^ e := by positivity
  have hlog : Int.log 2 ((m : ℚ) * (2 : ℚ) ^ e) < e + 53 := by
    rw [← Int.lt_zpow_iff_log_lt (by norm_num) ha]
    have : (m : ℚ) < 2 ^ 53 := by exact_mod_cast hm
    have h2 : ((2 : ℕ) : ℚ) ^ (e + 53) = 2 ^ 53 * (2 : ℚ) ^ e := by
      rw [zpow_add₀ (by norm_num)]; norm_num; ring
    rw [h2]
    exact mul_lt_mul_of_pos_right this (by positivity)
  have hexp : F64.expQ ((m : ℚ) * (2 : ℚ) ^ e) ≤ e := by
    unfold F64.expQ
    exact max_le (by omega) he
  set x := F64.expQ ((m : ℚ) * (2 : ℚ) ^ e) with hx
  have hq : (m : ℚ) * (2 : ℚ) ^ e / (2 : ℚ) ^ x = (((m * 2 ^ (e - x).toNat : Nat) : ℤ) : ℚ) := by
    push_cast
    rw [← zpow_natCast (2 : ℚ), Int.toNat_of_nonneg (by omega), zpow_sub₀ (by norm_num)]
    ring
  unfold F64.rndQ
  rw [← hx, hq, F64.rheQ_intCast, ← hq]
  field_simp

end PolybarAB

namespace PolybarAB

theorem F64.round_spec (s : Bool) (N D : Nat) (X : Int) (hN : 0 < N) (hD : 0 < D) :
    (F64.round s N D X = F64.inf s ∧
        (2 : ℚ) ^ (1024 : ℤ) ≤ F64.rndQ ((N : ℚ) / D * (2 : ℚ) ^ X)) ∨
    (∃ m e, F64.round s N D X = F64.fin s m e ∧ m < 2 ^ 53 ∧ -1074 ≤ e ∧ e ≤ 971 ∧
        (m : ℚ) * (2 : ℚ) ^ e = F64.rndQ ((N : ℚ) / D * (2 : ℚ) ^ X)) := by
  have hNq : (0 : ℚ) < N := by exact_mod_cast hN
  have hDq : (0 : ℚ) < D := by exact_mod_cast hD
  have ha : (0 : ℚ) < (N : ℚ) / D * (2 : ℚ) ^ X := by positivity
  have hsig := F64.roundSig_eq N D X hN hD
  have hexp := F64.ulpExp_eq N D X hN hD
  have hle := F64.sig_le _ ha
  have hge := F64.expQ_ge ((N : ℚ) / D * (2 : ℚ) ^ X)
  set a := (N : ℚ) / D * (2 : ℚ) ^ X with hadef
  have hval : F64.rndQ a = (F64.roundSig N D X : ℚ) * (2 : ℚ) ^ F64.ulpExp N D X := by
    unfold F64.rndQ
    rw [← hsig, hexp]
    norm_cast
  rw [← hsig] at hle
  have hle' : F64.roundSig N D X ≤ 2 ^ 53 := by exact_mod_cast hle
  unfold F64.round
  rw [if_neg hN.ne']
  simp only []
  by_cases h53 : F64.roundSig N D X = 2 ^ 53
  · rw [if_pos h53]
    by_cases hov : 971 < F64.ulpExp N D X + 1
    · rw [if_pos hov]
      left
      refine ⟨rfl, ?_⟩
      rw [hval, h53]
      have : (2 : ℚ) ^ (1024 : ℤ) ≤ (2 : ℚ) ^ (53 + F64.ulpExp N D X) :=
        zpow_le_zpow_right₀ (by norm_num) (by omega)
      rw [zpow_add₀ (by norm_num)] at this
      calc (2 : ℚ) ^ (1024 : ℤ) ≤ (2 : ℚ) ^ (53 : ℤ) * (2 : ℚ) ^ F64.ulpExp N D X := this
        _ = ((2 ^ 53 : Nat) : ℚ) * (2 : ℚ) ^ F64.ulpExp N D X := by norm_num
    · rw [if_neg hov]
      right
      refine ⟨2 ^ 52, F64.ulpExp N D X + 1, rfl, by norm_num, by rw [hexp]; omega, by omega, ?_⟩
      rw [hval, h53, zpow_add_one₀ (by norm_num)]
      push_cast
      ring
  · rw [if_neg h53]
    by_cases hov : 971 < F64.ulpExp N D X
    · rw [if_pos hov]
      left
      refine ⟨rfl, ?_⟩
      have hee : F64.expQ a = Int.log 2 a - 52 := by
        rw [hexp] at hov
        unfold F64.expQ at hov ⊢
        rcases max_cases (Int.log 2 a - 52) (-1074) with ⟨h, _⟩ | ⟨h, _⟩
        · exact h
        · rw [h] at hov; omega
      have hsg := F64.sig_ge a ha hee
      rw [← hsig] at hsg
      have hsg' : ((2 ^ 52 : Nat) : ℚ) ≤ (F64.roundSig N D X : ℚ) := by exact_mod_cast hsg
      have : (2 : ℚ) ^ (1024 : ℤ) ≤ (2 : ℚ) ^ (52 + F64.ulpExp N D X) :=
        zpow_le_zpow_right₀ (by norm_num) (by omega)
      rw [zpow_add₀ (by norm_num)] at this
      rw [hval]
      calc (2 : ℚ) ^ (1024 : ℤ) ≤ (2 : ℚ) ^ (52 : ℤ) * (2 : ℚ) ^ F64.ulpExp N D X := this
        _ = ((2 ^ 52 : Nat) : ℚ) * (2 : ℚ) ^ F64.ulpExp N D X := by norm_num
        _ ≤ (F64.roundSig N D X : ℚ) * (2 : ℚ) ^ F64.ulpExp N D X :=
            mul_le_mul_of_nonneg_right hsg' (by positivity)
    · rw [if_neg hov]
      right
      exact ⟨F64.roundSig N D X, F64.ulpExp N D X, rfl, by omega, by rw [hexp]; omega, by omega,
        hval.symm⟩

theorem F64.round_sign (s : Bool) (N D : Nat) (X : Int) :
    F64.round s N D X = F64.inf s ∨ ∃ m e, F64.round s N D X = F64.fin s m e := by
  unfold F64.round
  simp only []
  split_ifs
  · exact Or.inr ⟨_, _, rfl⟩
  · exact Or.inl rfl
  · exact Or.inr ⟨_, _, rfl⟩
  · exact Or.inl rfl
  · exact Or.inr ⟨_, _, rfl⟩

theorem F64.rndQ_of_round (N D : Nat) (X : Int) (m : Nat) (e : Int) (hN : 0 < N) (hD : 0 < D)
    (h : F64.round false N D X = F64.fin false m e) :
    F64.rndQ ((N : ℚ) / D * (2 : ℚ) ^ X) = (m : ℚ) * (2 : ℚ) ^ e := by
  rcases F64.round_spec false N D X hN hD with ⟨h1, _⟩ | ⟨m1, e1, h1, _, _, _, h2⟩
  · rw [h1] at h; cases h
  · rw [h1] at h
    injection h with _ hm he
    rw [← hm, ← he, h2]

end PolybarAB

namespace PolybarAB

/-! ## The derived status of `main` -/

/-- C8: a reading whose charge rate is zero, whatever its state, current and
full, leaves the remaining duration of `main` at 0, and `timeRemaining`
renders that duration as the empty string. -/
theorem zero_rate_renders_empty (b : Battery)
    (h : F64.eq b.ChargeRate (F64.ofNat 0) = true) :
    timeDur b = F64.ofNat 0 ∧ timeRemaining (timeDur b) = .ok "" := by
  have hd : timeDur b = F64.ofNat 0 := by
    unfold timeDur F64.ne
    rw [h]
    simp
  rw [hd]
  exact ⟨rfl, by decide⟩

/-- Witness of C8: a discharging battery with charge rate 0. -/
theorem zero_rate_renders_empty_witness :
    timeDur ⟨4, F64.ofNat 37, F64.ofNat 100, F64.ofNat 0⟩ = F64.ofNat 0 ∧
      timeRemaining (timeDur ⟨4, F64.ofNat 37, F64.ofNat 100, F64.ofNat 0⟩) = .ok "" :=
  zero_rate_renders_empty ⟨4, F64.ofNat 37, F64.ofNat 100, F64.ofNat 0⟩ (by decide)

/-- C4 as stated fails: with current = -1 and full = 100 (so full > 0) the
percent of `main` is -1, which is below 0. -/
theorem percent_below_zero_counterexample :
    F64.lt (F64.ofNat 0) (F64.ofNat 100) = true ∧
    percentOf ⟨4, F64.fin true 1 0, F64.ofNat 100, F64.ofNat 0⟩ =
      F64.fin true 4503599627370496 (-52) ∧
    F64.le (F64.ofNat 0) (percentOf ⟨4, F64.fin true 1 0, F64.ofNat 100, F64.ofNat 0⟩) = false := by
  decide

/-- Where C4 also fails: with current = 0 and full the least positive
float64, `full * 0.01` is rounded to 0 and the percent is 0/0, not a number,
which no comparison places in the range 0 to 100. -/
theorem percent_nan_example :
    F64.lt (F64.ofNat 0) (F64.fin false 1 (-1074)) = true ∧
    percentOf ⟨4, F64.ofNat 0, F64.fin false 1 (-1074), F64.ofNat 0⟩ = F64.nan ∧
    F64.le (F64.ofNat 0) (percentOf ⟨4, F64.ofNat 0, F64.fin false 1 (-1074), F64.ofNat 0⟩)
      = false := by
  set_option exponentiation.threshold 2000 in
  set_option maxRecDepth 20000 in
  decide

theorem F64.pos_cases (x : F64) (h : F64.lt (F64.ofNat 0) x = true) :
    x = F64.inf false ∨ ∃ m e, x = F64.fin false m e ∧ 0 < m := by
  cases x with
  | nan => simp [F64.lt, F64.ofNat] at h
  | inf s => cases s <;> simp_all [F64.lt, F64.ofNat]
  | fin s m e =>
    right
    rw [F64.ofNat, F64.lt_fin_iff, F64.val_ofNat] at h
    have hp : (0 : ℚ) < (2 : ℚ) ^ e := by positivity
    cases s with
    | true =>
      exfalso
      simp only [F64.val, if_true, Nat.cast_zero] at h
      have : (0 : ℚ) ≤ (m : ℚ) * (2 : ℚ) ^ e := by positivity
      linarith
    | false =>
      refine ⟨m, e, rfl, ?_⟩
      rcases Nat.eq_zero_or_pos m with h0 | h0
      · subst h0; simp [F64.val] at h
      · exact h0

theorem F64.nonneg_cases (x : F64) (h : F64.le (F64.ofNat 0) x = true) :
    x = F64.inf false ∨ (∃ s e, x = F64.fin s 0 e) ∨ ∃ m e, x = F64.fin false m e ∧ 0 < m := by
  cases x with
  | nan => simp [F64.le, F64.ofNat] at h
  | inf s => cases s <;> simp_all [F64.le, F64.ofNat]
  | fin s m e =>
    right
    rw [F64.ofNat, F64.le_fin_iff, F64.val_ofNat] at h
    rcases Nat.eq_zero_or_pos m with h0 | h0
    · subst h0; exact Or.inl ⟨s, e, rfl⟩
    · right
      cases s with
      | true =>
        exfalso
        simp only [F64.val, if_true, Nat.cast_zero] at h
        have hmq : (0 : ℚ) < m := by exact_mod_cast h0
        have : (0 : ℚ) < (m : ℚ) * (2 : ℚ) ^ e := mul_pos hmq (by positivity)
        linarith
      | false => exact ⟨m, e, rfl, h0⟩

theorem F64.val_false (m : Nat) (e : Int) : F64.val false m e = (m : ℚ) * (2 : ℚ) ^ e := by
  simp [F64.val]

theorem F64.val_nonneg (m : Nat) (e : Int) : 0 ≤ F64.val false m e := by
  rw [F64.val_false]
  positivity

theorem F64.zero_le_fin (m : Nat) (e : Int) :
    F64.le (F64.ofNat 0) (F64.fin false m e) = true := by
  rw [F64.ofNat_le_iff]
  simpa using F64.val_nonneg m e

theorem F64.zero_le_zero (s : Bool) (e : Int) :
    F64.le (F64.ofNat 0) (F64.fin s 0 e) = true := by
  rw [F64.ofNat_le_iff]
  simp [F64.val]

theorem capped_range (r : F64) (h0 : F64.le (F64.ofNat 0) r = true) :
    F64.le (F64.ofNat 0) (if F64.gt r (F64.ofNat 100) = true then F64.ofNat 100 else r) = true ∧
    F64.le (if F64.gt r (F64.ofNat 100) = true then F64.ofNat 100 else r) (F64.ofNat 100)
      = true := by
  by_cases hg : F64.gt r (F64.ofNat 100) = true
  · rw [if_pos hg]
    exact ⟨by decide, by decide⟩
  · rw [if_neg hg]
    refine ⟨h0, ?_⟩
    cases r with
    | nan => simp [F64.le, F64.ofNat] at h0
    | inf s => cases s <;> simp_all [F64.le, F64.gt, F64.lt, F64.ofNat]
    | fin s m e =>
      rw [F64.gt, F64.ofNat, F64.lt_fin_iff, not_lt] at hg
      rw [F64.ofNat, F64.le_fin_iff]
      exact hg

/-- The product `full * 0.01` of `main` is not rounded to zero once `full`
is at least 2^-1067 (128 times the least positive float64). -/
theorem mul_c001_pos (full : F64) (h : F64.le (F64.fin false 1 (-1067)) full = true) :
    F64.lt (F64.ofNat 0) (F64.mul full c001) = true := by
  have hc : c001 = F64.fin false 5764607523034235 (-59) := by decide
  cases full with
  | nan => simp [F64.le] at h
  | inf s =>
    cases s
    · rw [hc]; rfl
    · simp [F64.le] at h
  | fin s m e =>
    rw [F64.le_fin_iff, F64.val_false] at h
    have hpos : (0 : ℚ) < (1 : Nat) * (2 : ℚ) ^ (-1067 : ℤ) := by positivity
    have hs : s = false := by
      cases s with
      | false => rfl
      | true =>
        exfalso
        simp only [F64.val, if_true] at h
        have : (0 : ℚ) ≤ (m : ℚ) * (2 : ℚ) ^ e := by positivity
        linarith
    subst hs
    rw [F64.val_false] at h
    have hm : 0 < m := by
      rcases Nat.eq_zero_or_pos m with h0 | h0
      · subst h0; simp at h; linarith
      · exact h0
    rw [hc]
    simp only [F64.mul, Bool.xor_false]
    have hN : 0 < m * 5764607523034235 := by positivity
    have hlow : ((1 : Nat) : ℚ) * (2 : ℚ) ^ (-1074 : ℤ) ≤
        ((m * 5764607523034235 : Nat) : ℚ) / (1 : Nat) * (2 : ℚ) ^ (e + -59) := by
      have e1 : (2 : ℚ) ^ (-1074 : ℤ) = (2 : ℚ) ^ (-1067 : ℤ) * (2 : ℚ) ^ (-7 : ℤ) := by
        rw [← zpow_add₀ (by norm_num)]; norm_num
      have e2 : (2 : ℚ) ^ (e + -59) = (2 : ℚ) ^ e * (2 : ℚ) ^ (-59 : ℤ) := by
        rw [zpow_add₀ (by norm_num)]
      have e3 : (2 : ℚ) ^ (-7 : ℤ) ≤ 5764607523034235 * (2 : ℚ) ^ (-59 : ℤ) := by norm_num
      rw [e1, e2]
      push_cast
      push_cast at h
      have hle : (2 : ℚ) ^ (-1067 : ℤ) * (2 : ℚ) ^ (-7 : ℤ) ≤
          ((m : ℚ) * (2 : ℚ) ^ e) * (5764607523034235 * (2 : ℚ) ^ (-59 : ℤ)) := by
        apply mul_le_mul _ e3 (by positivity) (by positivity)
        simpa using h
      calc 1 * ((2 : ℚ) ^ (-1067 : ℤ) * (2 : ℚ) ^ (-7 : ℤ))
          = (2 : ℚ) ^ (-1067 : ℤ) * (2 : ℚ) ^ (-7 : ℤ) := by ring
        _ ≤ ((m : ℚ) * (2 : ℚ) ^ e) * (5764607523034235 * (2 : ℚ) ^ (-59 : ℤ)) := hle
        _ = (m : ℚ) * 5764607523034235 / 1 * ((2 : ℚ) ^ e * (2 : ℚ) ^ (-59 : ℤ)) := by ring
    rcases F64.round_spec false (m * 5764607523034235) 1 (e + -59) hN (by norm_num) with
      ⟨hr, _⟩ | ⟨m1, e1, hr, _, _, _, hv⟩
    · rw [hr]; rfl
    · rw [hr, F64.ofNat, F64.lt_fin_iff, F64.val_false, F64.val_false, hv]
      have h1 := F64.rndQ_mono _ _ (by positivity) hlow
      rw [F64.rndQ_exact 1 (-1074) (by norm_num) (by norm_num) (by norm_num)] at h1
      have : (0 : ℚ) < ((1 : Nat) : ℚ) * (2 : ℚ) ^ (-1074 : ℤ) := by positivity
      simp only [Nat.cast_zero, zero_mul]
      linarith

/-- C4, amended: for a reading with a finite current ≥ 0 and full > 0 whose
product `full * 0.01` is not rounded to zero, the percent of `main`
satisfies 0 ≤ percent ≤ 100. -/
theorem percent_in_range (b : Battery)
    (hcur : F64.le (F64.ofNat 0) b.Current = true)
    (hfin : F64.isFinite b.Current = true)
    (_hfull : F64.lt (F64.ofNat 0) b.Full = true)
    (hprod : F64.lt (F64.ofNat 0) (F64.mul b.Full c001) = true) :
    F64.le (F64.ofNat 0) (percentOf b) = true ∧
      F64.le (percentOf b) (F64.ofNat 100) = true := by
  unfold percentOf
  simp only []
  apply capped_range
  rcases F64.pos_cases _ hprod with hP | ⟨m2, e2, hP, hm2⟩
  · rw [hP]
    rcases F64.nonneg_cases _ hcur with hC | ⟨s, e, hC⟩ | ⟨m, e, hC, _⟩
    · rw [hC] at hfin; simp [F64.isFinite] at hfin
    · rw [hC]; simp only [F64.div]; exact F64.zero_le_zero _ _
    · rw [hC]; simp only [F64.div]; exact F64.zero_le_zero _ _
  · rw [hP]
    rcases F64.nonneg_cases _ hcur with hC | ⟨s, e, hC⟩ | ⟨m, e, hC, hm⟩
    · rw [hC] at hfin; simp [F64.isFinite] at hfin
    · rw [hC]
      simp only [F64.div, if_neg hm2.ne', F64.round, if_true]
      exact F64.zero_le_zero _ _
    · rw [hC]
      simp only [F64.div, if_neg hm2.ne', Bool.xor_false]
      rcases F64.round_sign false m m2 (e - e2) with h | ⟨m', e', h⟩
      · rw [h]; simp [F64.le, F64.ofNat]
      · rw [h]; exact F64.zero_le_fin _ _

/-- Witness of C4 amended: current 37 of full 50. -/
theorem percent_in_range_witness :
    F64.le (F64.ofNat 0) (percentOf ⟨4, F64.ofNat 37, F64.ofNat 50, F64.ofNat 1⟩) = true ∧
      F64.le (percentOf ⟨4, F64.ofNat 37, F64.ofNat 50, F64.ofNat 1⟩) (F64.ofNat 100) = true :=
  percent_in_range ⟨4, F64.ofNat 37, F64.ofNat 50, F64.ofNat 1⟩
    (by decide) (by decide) (by decide) (by decide)

end PolybarAB

namespace PolybarAB

/-! ## The icon index of the Discharging branch -/

theorem F64.pred_bound (m : Nat) (e : Int) (B j : Nat) (hm : m < 2 ^ 53) (hj : j ≤ 52)
    (hB : 2 ^ j < B) (hlt : (m : ℚ) * (2 : ℚ) ^ e < (B : ℚ)) :
    (m : ℚ) * (2 : ℚ) ^ e ≤ ((B * 2 ^ (52 - j) - 1 : Nat) : ℚ) * (2 : ℚ) ^ ((j : ℤ) - 52) := by
  set u : ℤ := (j : ℤ) - 52 with hu
  have hup : (0 : ℚ) < (2 : ℚ) ^ u := by positivity
  have hpow : ((2 ^ (52 - j) : Nat) : ℚ) * (2 : ℚ) ^ u = 1 := by
    push_cast
    rw [← zpow_natCast (2 : ℚ), ← zpow_add₀ (by norm_num)]
    have : ((52 - j : Nat) : ℤ) + u = 0 := by omega
    rw [this, zpow_zero]
  have hBq : (B : ℚ) = ((B * 2 ^ (52 - j) : Nat) : ℚ) * (2 : ℚ) ^ u := by
    push_cast
    push_cast at hpow
    rw [mul_assoc, hpow, mul_one]
  have hB1 : 1 ≤ B * 2 ^ (52 - j) :=
    Nat.mul_pos (lt_of_le_of_lt (Nat.zero_le _) hB) (by positivity)
  rcases le_or_lt u e with hue | hue
  · have hme : (m : ℚ) * (2 : ℚ) ^ e = ((m * 2 ^ (e - u).toNat : Nat) : ℚ) * (2 : ℚ) ^ u := by
      push_cast
      rw [← zpow_natCast (2 : ℚ), Int.toNat_of_nonneg (by omega), mul_assoc,
        ← zpow_add₀ (by norm_num)]
      congr 2
      omega
    rw [hme, hBq] at hlt
    have h1 : ((m * 2 ^ (e - u).toNat : Nat) : ℚ) < ((B * 2 ^ (52 - j) : Nat) : ℚ) :=
      lt_of_mul_lt_mul_right hlt hup.le
    have h2 : m * 2 ^ (e - u).toNat < B * 2 ^ (52 - j) := by exact_mod_cast h1
    have h3 : m * 2 ^ (e - u).toNat ≤ B * 2 ^ (52 - j) - 1 := by omega
    rw [hme]
    exact mul_le_mul_of_nonneg_right (by exact_mod_cast h3) hup.le
  · have hmq : (m : ℚ) < 2 ^ 53 := by exact_mod_cast hm
    have h1 : (2 : ℚ) ^ e ≤ (2 : ℚ) ^ (u - 1) := zpow_le_zpow_right₀ (by norm_num) (by omega)
    have h2 : (2 : ℚ) ^ 53 * (2 : ℚ) ^ (u - 1) = (2 : ℚ) ^ (j : ℤ) := by
      rw [← zpow_natCast (2 : ℚ) 53, ← zpow_add₀ (by norm_num)]
      congr 1
      omega
    have h3 : (m : ℚ) * (2 : ℚ) ^ e ≤ (2 : ℚ) ^ (j : ℤ) := by
      calc (m : ℚ) * (2 : ℚ) ^ e ≤ (m : ℚ) * (2 : ℚ) ^ (u - 1) :=
            mul_le_mul_of_nonneg_left h1 (by positivity)
        _ ≤ (2 : ℚ) ^ 53 * (2 : ℚ) ^ (u - 1) :=
            mul_le_mul_of_nonneg_right hmq.le (by positivity)
        _ = (2 : ℚ) ^ (j : ℤ) := h2
    have h4 : ((2 : ℚ) ^ (j : ℤ)) + 1 ≤ (B : ℚ) := by
      rw [zpow_natCast]
      exact_mod_cast hB
    have h5 : (2 : ℚ) ^ u ≤ 1 := by
      have : (2 : ℚ) ^ u ≤ (2 : ℚ) ^ (0 : ℤ) := zpow_le_zpow_right₀ (by norm_num) (by omega)
      simpa using this
    have h6 : ((B * 2 ^ (52 - j) - 1 : Nat) : ℚ) * (2 : ℚ) ^ u = (B : ℚ) - (2 : ℚ) ^ u := by
      rw [Nat.cast_sub hB1, sub_mul, ← hBq]
      simp
    rw [h6]
    linarith

theorem F64.rndQ_below (m : Nat) (e : Int) (k j : Nat) (m1 : Nat) (e1 : Int)
    (hm0 : 0 < m) (hm : m < 2 ^ 53) (hj : j ≤ 52) (hB : 2 ^ j < 10 * k)
    (hr : F64.round false (10 * k * 2 ^ (52 - j) - 1) 10 ((j : ℤ) - 52) = F64.fin false m1 e1)
    (hk : (m1 : ℚ) * (2 : ℚ) ^ e1 < (k : ℚ))
    (hlt : (m : ℚ) * (2 : ℚ) ^ e < ((10 * k : Nat) : ℚ)) :
    F64.rndQ ((m : ℚ) / (10 : Nat) * (2 : ℚ) ^ e) < (k : ℚ) := by
  have hpb := F64.pred_bound m e (10 * k) j hm hj hB hlt
  have hpos : 0 < 10 * k * 2 ^ (52 - j) - 1 := by
    have : 2 ≤ 10 * k * 2 ^ (52 - j) := by
      have h1 : 1 ≤ 2 ^ (52 - j) := Nat.one_le_two_pow
      have h2 : 1 ≤ 2 ^ j := Nat.one_le_two_pow
      nlinarith
    omega
  have heval := F64.rndQ_of_round _ 10 _ m1 e1 hpos (by norm_num) hr
  have hmq : (0 : ℚ) < m := by exact_mod_cast hm0
  have ha : (0 : ℚ) < (m : ℚ) / (10 : Nat) * (2 : ℚ) ^ e := by positivity
  have hle : (m : ℚ) / (10 : Nat) * (2 : ℚ) ^ e ≤
      ((10 * k * 2 ^ (52 - j) - 1 : Nat) : ℚ) / (10 : Nat) * (2 : ℚ) ^ ((j : ℤ) - 52) := by
    have : (m : ℚ) * (2 : ℚ) ^ e / 10 ≤
        ((10 * k * 2 ^ (52 - j) - 1 : Nat) : ℚ) * (2 : ℚ) ^ ((j : ℤ) - 52) / 10 := by
      apply div_le_div_of_nonneg_right hpb (by norm_num)
    calc (m : ℚ) / (10 : Nat) * (2 : ℚ) ^ e = (m : ℚ) * (2 : ℚ) ^ e / 10 := by push_cast; ring
      _ ≤ ((10 * k * 2 ^ (52 - j) - 1 : Nat) : ℚ) * (2 : ℚ) ^ ((j : ℤ) - 52) / 10 := this
      _ = ((10 * k * 2 ^ (52 - j) - 1 : Nat) : ℚ) / (10 : Nat) * (2 : ℚ) ^ ((j : ℤ) - 52) := by
          push_cast; ring
  have hmono := F64.rndQ_mono _ _ ha hle
  rw [heval] at hmono
  exact lt_of_le_of_lt hmono hk

theorem F64.rndQ_above (a : ℚ) (k : Nat) (hk0 : 0 < k) (hk : k < 2 ^ 53) (h : (k : ℚ) ≤ a) :
    (k : ℚ) ≤ F64.rndQ a := by
  have hkq : (0 : ℚ) < k := by exact_mod_cast hk0
  have := F64.rndQ_mono (k : ℚ) a hkq h
  have hex := F64.rndQ_exact k 0 hk0 hk (by norm_num)
  simp only [zpow_zero, mul_one] at hex
  rwa [hex] at this

end PolybarAB

namespace PolybarAB

theorem F64.rndQ_lt_of_lt (m : Nat) (e : Int) (k : Nat) (hm0 : 0 < m) (hm : m < 2 ^ 53)
    (hk1 : 1 ≤ k) (hk9 : k ≤ 9) (hlt : (m : ℚ) * (2 : ℚ) ^ e < ((10 * k : Nat) : ℚ)) :
    F64.rndQ ((m : ℚ) / (10 : Nat) * (2 : ℚ) ^ e) < (k : ℚ) := by
  interval_cases k
  · exact F64.rndQ_below m e 1 3 9007199254740990 (-53) hm0 hm (by norm_num) (by norm_num)
      (by decide) (by norm_num) hlt
  · exact F64.rndQ_below m e 2 4 9007199254740990 (-52) hm0 hm (by norm_num) (by norm_num)
      (by decide) (by norm_num) hlt
  · exact F64.rndQ_below m e 3 4 6755399441055743 (-51) hm0 hm (by norm_num) (by norm_num)
      (by decide) (by norm_num) hlt
  · exact F64.rndQ_below m e 4 5 9007199254740990 (-51) hm0 hm (by norm_num) (by norm_num)
      (by decide) (by norm_num) hlt
  · exact F64.rndQ_below m e 5 5 5629499534213119 (-50) hm0 hm (by norm_num) (by norm_num)
      (by decide) (by norm_num) hlt
  · exact F64.rndQ_below m e 6 5 6755399441055743 (-50) hm0 hm (by norm_num) (by norm_num)
      (by decide) (by norm_num) hlt
  · exact F64.rndQ_below m e 7 6 7881299347898366 (-50) hm0 hm (by norm_num) (by norm_num)
      (by decide) (by norm_num) hlt
  · exact F64.rndQ_below m e 8 6 9007199254740990 (-50) hm0 hm (by norm_num) (by norm_num)
      (by decide) (by norm_num) hlt
  · exact F64.rndQ_below m e 9 6 5066549580791807 (-49) hm0 hm (by norm_num) (by norm_num)
      (by decide) (by norm_num) hlt

theorem F64.truncNat_cast (m : Nat) (e : Int) :
    (((if 0 ≤ e then m * 2 ^ e.toNat else m / 2 ^ (-e).toNat : Nat) : ℤ)) =
      ⌊(m : ℚ) * (2 : ℚ) ^ e⌋ := by
  by_cases he : 0 ≤ e
  · rw [if_pos he]
    have : (m : ℚ) * (2 : ℚ) ^ e = ((m * 2 ^ e.toNat : Nat) : ℚ) := by
      push_cast
      rw [← zpow_natCast (2 : ℚ), Int.toNat_of_nonneg he]
    rw [this, Int.floor_natCast]
  · rw [if_neg he]
    have : (m : ℚ) * (2 : ℚ) ^ e = (m : ℚ) / ((2 ^ (-e).toNat : Nat) : ℚ) := by
      push_cast
      rw [← zpow_natCast (2 : ℚ), Int.toNat_of_nonneg (by omega), zpow_neg, div_inv_eq_mul]
    rw [this, Rat.floor_natCast_div_natCast]
    simp

theorem F64.toInt64_pos (m : Nat) (e : Int) (h : (m : ℚ) * (2 : ℚ) ^ e < 2 ^ 63) :
    F64.toInt64 (F64.fin false m e) = some ⌊(m : ℚ) * (2 : ℚ) ^ e⌋ := by
  have hc := F64.truncNat_cast m e
  have hlt : ⌊(m : ℚ) * (2 : ℚ) ^ e⌋ < 2 ^ 63 := by
    rw [Int.floor_lt]; exact_mod_cast h
  have hge : 0 ≤ ⌊(m : ℚ) * (2 : ℚ) ^ e⌋ := by
    rw [← hc]; exact Int.natCast_nonneg _
  unfold F64.toInt64
  simp only [Bool.false_eq_true, if_false]
  rw [hc, if_pos ⟨by omega, hlt⟩]

theorem sint_Min_eq (a b : Int) : sint_Min a b = min a b := by
  unfold sint_Min
  split_ifs with h
  · exact (min_eq_left h.le).symm
  · exact (min_eq_right (not_lt.1 h)).symm

theorem iconAt_ok (i : Int) (h0 : 0 ≤ i) (h9 : i ≤ 9) : ∃ icon, iconAt i = .ok icon := by
  obtain ⟨n, rfl⟩ := Int.eq_ofNat_of_zero_le h0
  have hn : n ≤ 9 := by exact_mod_cast h9
  interval_cases n <;> exact ⟨_, rfl⟩

theorem dischargeLevel_zero (s : Bool) (e : Int) :
    dischargeLevel (F64.fin s 0 e) = .ok 0 := by
  cases s <;> rfl

/-- A float64 below 10 * 2^63 is at most the float64 just under it. -/
theorem F64.below_int_range (m : Nat) (e : Int) (hm : m < 2 ^ 53)
    (hlt : (m : ℚ) * (2 : ℚ) ^ e < 5 * 2 ^ 64) :
    (m : ℚ) * (2 : ℚ) ^ e ≤ 5 * 2 ^ 64 - 2 ^ 14 := by
  rcases le_or_lt (14 : ℤ) e with he | he
  · have hme : (m : ℚ) * (2 : ℚ) ^ e = ((m * 2 ^ (e - 14).toNat : Nat) : ℚ) * 2 ^ 14 := by
      push_cast
      rw [← zpow_natCast (2 : ℚ) (e - 14).toNat, Int.toNat_of_nonneg (by omega), mul_assoc,
        ← zpow_natCast (2 : ℚ) 14, ← zpow_add₀ (by norm_num)]
      congr 2
      omega
    rw [hme] at hlt ⊢
    have h1 : ((m * 2 ^ (e - 14).toNat : Nat) : ℚ) < ((5 * 2 ^ 50 : Nat) : ℚ) := by
      have h5 : (5 : ℚ) * 2 ^ 64 = ((5 * 2 ^ 50 : Nat) : ℚ) * 2 ^ 14 := by norm_num
      rw [h5] at hlt
      exact lt_of_mul_lt_mul_right hlt (by positivity)
    have h2 : m * 2 ^ (e - 14).toNat < 5 * 2 ^ 50 := by exact_mod_cast h1
    have h3 : m * 2 ^ (e - 14).toNat ≤ 5 * 2 ^ 50 - 1 := by omega
    have h4 : ((m * 2 ^ (e - 14).toNat : Nat) : ℚ) ≤ ((5 * 2 ^ 50 - 1 : Nat) : ℚ) := by
      exact_mod_cast h3
    have h6 : ((5 * 2 ^ 50 - 1 : Nat) : ℚ) * 2 ^ 14 = 5 * 2 ^ 64 - 2 ^ 14 := by norm_num
    rw [← h6]
    exact mul_le_mul_of_nonneg_right h4 (by positivity)
  · have hmq : (m : ℚ) < 2 ^ 53 := by exact_mod_cast hm
    have h1 : (2 : ℚ) ^ e ≤ (2 : ℚ) ^ (13 : ℤ) := zpow_le_zpow_right₀ (by norm_num) (by omega)
    have h2 : (m : ℚ) * (2 : ℚ) ^ e ≤ 2 ^ 53 * (2 : ℚ) ^ (13 : ℤ) := by
      calc (m : ℚ) * (2 : ℚ) ^ e ≤ (m : ℚ) * (2 : ℚ) ^ (13 : ℤ) :=
            mul_le_mul_of_nonneg_left h1 (by positivity)
        _ ≤ 2 ^ 53 * (2 : ℚ) ^ (13 : ℤ) := mul_le_mul_of_nonneg_right hmq.le (by positivity)
    have h3 : (2 : ℚ) ^ 53 * (2 : ℚ) ^ (13 : ℤ) ≤ 5 * 2 ^ 64 - 2 ^ 14 := by norm_num
    linarith

/-- The float64 quotient `val / 10` of a positive float64 below 10 * 2^63 is
finite, its value is that of `rndQ`, and it is below 2^63. -/
theorem F64.div_ten_spec (s : Bool) (m : Nat) (e : Int) (hm0 : 0 < m) (hm : m < 2 ^ 53)
    (hlt : (m : ℚ) * (2 : ℚ) ^ e < 5 * 2 ^ 64) :
    ∃ m1 e1, F64.div (F64.fin s m e) (F64.ofNat 10) = F64.fin s m1 e1 ∧
      (m1 : ℚ) * (2 : ℚ) ^ e1 = F64.rndQ ((m : ℚ) / (10 : Nat) * (2 : ℚ) ^ e) ∧
      (m1 : ℚ) * (2 : ℚ) ^ e1 < 2 ^ 63 := by
  have hmq : (0 : ℚ) < m := by exact_mod_cast hm0
  have hapos : (0 : ℚ) < (m : ℚ) / (10 : Nat) * (2 : ℚ) ^ e := by positivity
  have hb := F64.below_int_range m e hm hlt
  have hac : (m : ℚ) / (10 : Nat) * (2 : ℚ) ^ e ≤
      ((2 ^ 53 - 1 : Nat) : ℚ) * (2 : ℚ) ^ (10 : ℤ) := by
    have h1 : (m : ℚ) / (10 : Nat) * (2 : ℚ) ^ e = (m : ℚ) * (2 : ℚ) ^ e / 10 := by
      push_cast; ring
    have h2 : (m : ℚ) * (2 : ℚ) ^ e / 10 ≤ (5 * 2 ^ 64 - 2 ^ 14) / 10 :=
      div_le_div_of_nonneg_right hb (by norm_num)
    have h3 : ((5 : ℚ) * 2 ^ 64 - 2 ^ 14) / 10 ≤ ((2 ^ 53 - 1 : Nat) : ℚ) * (2 : ℚ) ^ (10 : ℤ) := by
      norm_num
    rw [h1]
    exact le_trans h2 h3
  have hrc : F64.rndQ ((m : ℚ) / (10 : Nat) * (2 : ℚ) ^ e) ≤
      ((2 ^ 53 - 1 : Nat) : ℚ) * (2 : ℚ) ^ (10 : ℤ) := by
    have := F64.rndQ_mono _ _ hapos hac
    rwa [F64.rndQ_exact (2 ^ 53 - 1) 10 (by norm_num) (by norm_num) (by norm_num)] at this
  have hc63 : ((2 ^ 53 - 1 : Nat) : ℚ) * (2 : ℚ) ^ (10 : ℤ) < 2 ^ 63 := by norm_num
  have hdiv : F64.div (F64.fin s m e) (F64.ofNat 10) = F64.round s m 10 e := by
    simp [F64.div, F64.ofNat]
  rcases F64.round_spec s m 10 e hm0 (by norm_num) with ⟨_, hbig⟩ | ⟨m1, e1, hr, _, _, _, hv⟩
  · exfalso
    have : (2 : ℚ) ^ 63 < (2 : ℚ) ^ (1024 : ℤ) := by
      rw [← zpow_natCast (2 : ℚ) 63]
      exact zpow_lt_zpow_right₀ (by norm_num) (by norm_num)
    linarith
  · exact ⟨m1, e1, by rw [hdiv, hr], hv, by rw [hv]; linarith⟩

theorem dischargeLevel_pos (m : Nat) (e : Int) (hm0 : 0 < m) (hm : m < 2 ^ 53)
    (hlt : (m : ℚ) * (2 : ℚ) ^ e < 5 * 2 ^ 64) :
    dischargeLevel (F64.fin false m e) = .ok (min ⌊(m : ℚ) * (2 : ℚ) ^ e / 10⌋ 9) := by
  have hmq : (0 : ℚ) < m := by exact_mod_cast hm0
  obtain ⟨m1, e1, hdr, hv, hlt63⟩ := F64.div_ten_spec false m e hm0 hm hlt
  set a : ℚ := (m : ℚ) / (10 : Nat) * (2 : ℚ) ^ e with ha
  have hae : (m : ℚ) * (2 : ℚ) ^ e / 10 = a := by rw [ha]; push_cast; ring
  have hapos : 0 < a := by rw [ha]; positivity
  · have hr := hdr
    have hlev : dischargeLevel (F64.fin false m e) = .ok (min ⌊F64.rndQ a⌋ 9) := by
      unfold dischargeLevel int64Of
      rw [hr, F64.toInt64_pos m1 e1 hlt63, hv]
      simp [sint_Min_eq, bat_icons, bind, Except.bind, pure, Except.pure]
    rw [hlev, hae]
    congr 1
    -- the rounded quotient and the exact one have the same floor below 9
    rcases le_or_lt (9 : ℚ) a with h9 | h9
    · have h1 : ((9 : Nat) : ℚ) ≤ F64.rndQ a := F64.rndQ_above a 9 (by norm_num) (by norm_num)
        (by exact_mod_cast h9)
      have f1 : (9 : ℤ) ≤ ⌊F64.rndQ a⌋ := by rw [Int.le_floor]; exact_mod_cast h1
      have f2 : (9 : ℤ) ≤ ⌊a⌋ := by rw [Int.le_floor]; exact_mod_cast h9
      rw [min_eq_right f1, min_eq_right f2]
    · have hj0 : 0 ≤ ⌊a⌋ := Int.floor_nonneg.2 hapos.le
      have hj9 : ⌊a⌋ < 9 := by rw [Int.floor_lt]; exact_mod_cast h9
      obtain ⟨j, hj⟩ := Int.eq_ofNat_of_zero_le hj0
      have hjl : (j : ℚ) ≤ a := by
        have := Int.floor_le a
        rw [hj] at this
        exact_mod_cast this
      have hju : a < (j : ℚ) + 1 := by
        have := Int.lt_floor_add_one a
        rw [hj] at this
        exact_mod_cast this
      have hj8 : j ≤ 8 := by omega
      have hup : F64.rndQ a < ((j + 1 : Nat) : ℚ) := by
        apply F64.rndQ_lt_of_lt m e (j + 1) hm0 hm (by omega) (by omega)
        rw [← hae] at hju
        push_cast
        linarith
      have hlo : (j : ℚ) ≤ F64.rndQ a := by
        rcases Nat.eq_zero_or_pos j with h0 | h0
        · subst h0
          have := F64.sig_nonneg a hapos
          unfold F64.rndQ
          have h2 : (0 : ℚ) ≤ ((F64.rheQ (a / (2 : ℚ) ^ F64.expQ a) : ℤ) : ℚ) := by exact_mod_cast this
          simp only [Nat.cast_zero]
          positivity
        · exact F64.rndQ_above a j h0 (by omega) hjl
      have hfl : ⌊F64.rndQ a⌋ = (j : ℤ) := by
        rw [Int.floor_eq_iff]
        constructor
        · exact_mod_cast hlo
        · push_cast at hup; exact_mod_cast hup
      rw [hfl, hj]

theorem F64.toInt64_neg (m : Nat) (e : Int) (h : (m : ℚ) * (2 : ℚ) ^ e < 2 ^ 63) :
    F64.toInt64 (F64.fin true m e) = some (-⌊(m : ℚ) * (2 : ℚ) ^ e⌋) := by
  have hc := F64.truncNat_cast m e
  have hlt : ⌊(m : ℚ) * (2 : ℚ) ^ e⌋ < 2 ^ 63 := by
    rw [Int.floor_lt]; exact_mod_cast h
  have hge : 0 ≤ ⌊(m : ℚ) * (2 : ℚ) ^ e⌋ := by
    rw [← hc]; exact Int.natCast_nonneg _
  unfold F64.toInt64
  simp only [if_true]
  rw [hc, if_pos ⟨by omega, by omega⟩]

/-- On a negative percent above -10 the quotient truncates to 0. -/
theorem dischargeLevel_neg_small (m : Nat) (e : Int) (hm0 : 0 < m) (hm : m < 2 ^ 53)
    (hlt : (m : ℚ) * (2 : ℚ) ^ e < 10) :
    dischargeLevel (F64.fin true m e) = .ok 0 := by
  obtain ⟨m1, e1, hdr, hv, hlt63⟩ := F64.div_ten_spec true m e hm0 hm
    (lt_trans hlt (by norm_num))
  have h1 : F64.rndQ ((m : ℚ) / (10 : Nat) * (2 : ℚ) ^ e) < ((1 : Nat) : ℚ) :=
    F64.rndQ_lt_of_lt m e 1 hm0 hm le_rfl (by norm_num) (by push_cast; linarith)
  have hfl : ⌊(m1 : ℚ) * (2 : ℚ) ^ e1⌋ = 0 := by
    rw [Int.floor_eq_iff]
    constructor
    · push_cast; positivity
    · rw [hv]; push_cast at h1 ⊢; linarith
  unfold dischargeLevel int64Of
  rw [hdr, F64.toInt64_neg m1 e1 hlt63, hfl]
  rfl

/-- On a percent of -10 or less (within the int range) the index is
negative. -/
theorem dischargeLevel_neg_large (m : Nat) (e : Int) (hm0 : 0 < m) (hm : m < 2 ^ 53)
    (hge : 10 ≤ (m : ℚ) * (2 : ℚ) ^ e) (hlt : (m : ℚ) * (2 : ℚ) ^ e < 5 * 2 ^ 64) :
    ∃ level : ℤ, level < 0 ∧ dischargeLevel (F64.fin true m e) = .ok level := by
  obtain ⟨m1, e1, hdr, hv, hlt63⟩ := F64.div_ten_spec true m e hm0 hm hlt
  have h1 : ((1 : Nat) : ℚ) ≤ F64.rndQ ((m : ℚ) / (10 : Nat) * (2 : ℚ) ^ e) := by
    apply F64.rndQ_above _ 1 (by norm_num) (by norm_num)
    have : (m : ℚ) / (10 : Nat) * (2 : ℚ) ^ e = (m : ℚ) * (2 : ℚ) ^ e / 10 := by push_cast; ring
    rw [this, le_div_iff₀ (by norm_num)]
    push_cast
    linarith
  have hfl : 1 ≤ ⌊(m1 : ℚ) * (2 : ℚ) ^ e1⌋ := by
    rw [Int.le_floor, hv]
    exact_mod_cast h1
  refine ⟨-⌊(m1 : ℚ) * (2 : ℚ) ^ e1⌋, by omega, ?_⟩
  unfold dischargeLevel int64Of
  rw [hdr, F64.toInt64_neg m1 e1 hlt63]
  simp only [bind, Except.bind, pure, Except.pure, sint_Min_eq]
  congr 1
  have : ((bat_icons.length : ℤ)) - 1 = 9 := by decide
  rw [this]
  omega

end PolybarAB

namespace PolybarAB

theorem max_zero_min_nine (x : ℚ) (hx : 0 ≤ x) : max 0 (min ⌊x⌋ 9) = min ⌊x⌋ 9 := by
  have : 0 ≤ ⌊x⌋ := Int.floor_nonneg.2 hx
  omega

theorem F64.val_true (m : Nat) (e : Int) : F64.val true m e = -((m : ℚ) * (2 : ℚ) ^ e) := by
  simp [F64.val]

/-- C6, the code at the failing input: the percent -15 is a number (it is
what `main` derives from current = -15, full = 100); the Discharging branch
computes the index int(-1.5) = -1 for it, where clamp(floor(p/10), 0, 9) is
0, and the lookup `bat_icons[-1]` is out of range, so `polybar_out` panics
instead of writing a line. -/
theorem polybar_out_negative_index_out_of_range :
    F64.isNaN (F64.fin true 15 0) = false ∧
    F64.eq (percentOf ⟨4, F64.fin true 15 0, F64.ofNat 100, F64.ofNat 1⟩) (F64.fin true 15 0)
      = true ∧
    dischargeLevel (F64.fin true 15 0) = .ok (-1) ∧
    max 0 (min ⌊F64.toRat (F64.fin true 15 0) / 10⌋ 9) = 0 ∧
    iconAt (-1) = .error Fault.indexOutOfRange ∧
    polybar_out (F64.fin true 15 0) 4 "" = .error Fault.indexOutOfRange ∧
    polybar_out (percentOf ⟨4, F64.fin true 15 0, F64.ofNat 100, F64.ofNat 1⟩) 4 "" =
      .error Fault.indexOutOfRange := by
  refine ⟨by decide, by decide, by decide, ?_, by decide, by decide, by decide⟩
  have : ⌊F64.toRat (F64.fin true 15 0) / 10⌋ = -2 := by
    rw [Int.floor_eq_iff]
    norm_num [F64.toRat, F64.val]
  rw [this]
  decide

/-- Where the code does what C6 says: for every percent p with
-10 < p < 10 * 2^63 the index of the Discharging branch is
clamp(floor(p/10), 0, 9). -/
theorem dischargeLevel_eq (p : F64) (hv : F64.Valid p)
    (hlo : F64.lt (F64.fin true 10 0) p = true) (hhi : F64.lt p (F64.fin false 5 64) = true) :
    dischargeLevel p = .ok (max 0 (min ⌊F64.toRat p / 10⌋ 9)) := by
  cases p with
  | nan => simp [F64.lt] at hlo
  | inf s => cases s <;> simp [F64.lt] at hlo hhi
  | fin s m e =>
    have hm : m < 2 ^ 53 := hv.1
    rcases Nat.eq_zero_or_pos m with hm0 | hm0
    · subst hm0
      rw [dischargeLevel_zero]
      simp [F64.toRat, F64.val]
    · have hmq : (0 : ℚ) < m := by exact_mod_cast hm0
      cases s with
      | false =>
        have hlt' : (m : ℚ) * (2 : ℚ) ^ e < 5 * 2 ^ 64 := by
          rw [F64.lt_fin_iff, F64.val_false, F64.val_false] at hhi
          have : ((5 : Nat) : ℚ) * (2 : ℚ) ^ (64 : ℤ) = 5 * 2 ^ 64 := by norm_num
          rw [this] at hhi
          exact hhi
        rw [dischargeLevel_pos m e hm0 hm hlt']
        have hx : (0 : ℚ) ≤ (m : ℚ) * (2 : ℚ) ^ e / 10 := by positivity
        simp only [F64.toRat, F64.val_false]
        rw [max_zero_min_nine _ hx]
      | true =>
        have hlt' : (m : ℚ) * (2 : ℚ) ^ e < 10 := by
          rw [F64.lt_fin_iff, F64.val_true, F64.val_true] at hlo
          have : ((10 : Nat) : ℚ) * (2 : ℚ) ^ (0 : ℤ) = 10 := by norm_num
          rw [this] at hlo
          linarith
        rw [dischargeLevel_neg_small m e hm0 hm hlt']
        have hneg : ⌊F64.toRat (F64.fin true m e) / 10⌋ < 0 := by
          rw [Int.floor_lt]
          simp only [F64.toRat, F64.val_true]
          have : (0 : ℚ) < (m : ℚ) * (2 : ℚ) ^ e := by positivity
          push_cast
          linarith
        congr 1
        omega

theorem polybar_out_discharging (p : F64) (timeRem icon : String) (level : ℤ)
    (hnan : F64.isNaN p = false) (hlev : dischargeLevel p = .ok level)
    (hicon : iconAt level = .ok icon) :
    polybar_out p 4 timeRem =
      (Sprintf "%%\x7bF#%v\x7d %s %%\x7bF#%v\x7d%.2f%% %.2f%s\n"
        [GoArg.str (get_color p), GoArg.str icon, GoArg.str color_default, GoArg.f64 p,
         GoArg.str timeRem]).map (fun line => [line]) := by
  unfold polybar_out
  simp only [bind, Except.bind, pure, Except.pure, Except.map, hnan, hlev, hicon]
  cases hs : Sprintf "%%\x7bF#%v\x7d %s %%\x7bF#%v\x7d%.2f%% %.2f%s\n"
      [GoArg.str (get_color p), GoArg.str icon, GoArg.str color_default, GoArg.f64 p,
       GoArg.str timeRem] <;> simp

theorem isNaN_of_lt (p q : F64) (h : F64.lt p q = true) : F64.isNaN p = false := by
  cases p with
  | nan => simp [F64.lt] at h
  | inf s => rfl
  | fin s m e => rfl

/-- Where the code does what C6 says, on `polybar_out` itself: for every
percent p with -10 < p < 10 * 2^63 the lookup is in range and the line
written carries the icon of index clamp(floor(p/10), 0, 9); p = 0 gives
index 0, p = 99.9 gives 9 and p = 100 gives 9. -/
theorem polybar_out_index_in_range (p : F64) (timeRem : String) (hv : F64.Valid p)
    (hlo : F64.lt (F64.fin true 10 0) p = true) (hhi : F64.lt p (F64.fin false 5 64) = true) :
    dischargeLevel p = .ok (max 0 (min ⌊F64.toRat p / 10⌋ 9)) ∧
    (∃ icon, iconAt (max 0 (min ⌊F64.toRat p / 10⌋ 9)) = .ok icon ∧
      polybar_out p 4 timeRem =
        (Sprintf "%%\x7bF#%v\x7d %s %%\x7bF#%v\x7d%.2f%% %.2f%s\n"
          [GoArg.str (get_color p), GoArg.str icon, GoArg.str color_default, GoArg.f64 p,
           GoArg.str timeRem]).map (fun line => [line])) ∧
    dischargeLevel (F64.ofNat 0) = .ok 0 ∧
    dischargeLevel (F64.round false 999 10 0) = .ok 9 ∧
    dischargeLevel (F64.ofNat 100) = .ok 9 := by
  have hlev := dischargeLevel_eq p hv hlo hhi
  have hrange : 0 ≤ max 0 (min ⌊F64.toRat p / 10⌋ 9) ∧ max 0 (min ⌊F64.toRat p / 10⌋ 9) ≤ 9 := by
    constructor <;> omega
  obtain ⟨icon, hicon⟩ := iconAt_ok _ hrange.1 hrange.2
  exact ⟨hlev, ⟨icon, hicon, polybar_out_discharging p timeRem icon _ (isNaN_of_lt p _ hhi)
    hlev hicon⟩, by decide, by decide, by decide⟩

/-- Where the code breaks C6: for every percent p with
-10 * 2^63 < p ≤ -10 the index is negative and `polybar_out` panics in the
lookup, whatever the time-remaining text. -/
theorem polybar_out_panics_below (p : F64) (timeRem : String) (hv : F64.Valid p)
    (hhi : F64.le p (F64.fin true 10 0) = true) (hlo : F64.lt (F64.fin true 5 64) p = true) :
    polybar_out p 4 timeRem = .error Fault.indexOutOfRange := by
  cases p with
  | nan => simp [F64.lt] at hlo
  | inf s => cases s <;> simp [F64.lt, F64.le] at hlo hhi
  | fin s m e =>
    have hm : m < 2 ^ 53 := hv.1
    have hpos : (0 : ℚ) ≤ (m : ℚ) * (2 : ℚ) ^ e := by positivity
    have hten : ((10 : Nat) : ℚ) * (2 : ℚ) ^ (0 : ℤ) = 10 := by norm_num
    have hbig : ((5 : Nat) : ℚ) * (2 : ℚ) ^ (64 : ℤ) = 5 * 2 ^ 64 := by norm_num
    cases s with
    | false =>
      exfalso
      rw [F64.le_fin_iff, F64.val_false, F64.val_true, hten] at hhi
      linarith
    | true =>
      rw [F64.le_fin_iff, F64.val_true, F64.val_true, hten] at hhi
      rw [F64.lt_fin_iff, F64.val_true, F64.val_true, hbig] at hlo
      have hm0 : 0 < m := by
        rcases Nat.eq_zero_or_pos m with h0 | h0
        · subst h0; simp at hhi; linarith
        · exact h0
      obtain ⟨level, hneg, hlev⟩ := dischargeLevel_neg_large m e hm0 hm (by linarith)
        (by linarith)
      have hicon : iconAt level = .error Fault.indexOutOfRange := by
        unfold iconAt
        rw [if_pos hneg]
      unfold polybar_out
      simp only [bind, Except.bind, F64.isNaN, hlev, hicon]
      simp

end PolybarAB

namespace PolybarAB

/-! ## The line of the Discharging branch -/

/-- C7, the code at the failing input `polybar_out(0, 4, "")` (the call
`waitBat` makes): the line written ends in `%!f(string=)%!s(MISSING)`, the
text `fmt` produces for the verb `%.2f` given the time-remaining string and
for the verb `%s` left without operand. -/
theorem polybar_out_discharging_stray_verb :
    polybar_out (F64.ofNat 0) 4 "" =
      .ok ["%\x7bF#FF0000\x7d \uE242 %\x7bF#DFDFDF\x7d0.00% %!f(string=)%!s(MISSING)\n"] := by
  decide

theorem sprintf_discharging (color icon dflt : String) (val : F64) (timeRem : String) :
    Sprintf "%%\x7bF#%v\x7d %s %%\x7bF#%v\x7d%.2f%% %.2f%s\n"
      [GoArg.str color, GoArg.str icon, GoArg.str dflt, GoArg.f64 val, GoArg.str timeRem] =
    .ok ("%\x7bF#" ++ color ++ "\x7d " ++ icon ++ " %\x7bF#" ++ dflt ++ "\x7d" ++
      formatFloatF val 2 ++ "% %!f(string=" ++ String.mk (timeRem.toList.take 2) ++
      ")%!s(MISSING)\n") := by
  simp [Sprintf, sprintfScan, applyVerb, truncateString]
  rw [String.ext_iff]
  simp [String.data_push, String.data_append, String.singleton]

/-- The line of the Discharging branch in general: whatever the percent in
range and the time-remaining text, the line ends in the two error texts of
`fmt`, with at most two characters of the time-remaining text in between. -/
theorem polybar_out_discharging_line (p : F64) (timeRem : String) (hv : F64.Valid p)
    (hlo : F64.lt (F64.fin true 10 0) p = true) (hhi : F64.lt p (F64.fin false 5 64) = true) :
    ∃ icon, iconAt (max 0 (min ⌊F64.toRat p / 10⌋ 9)) = .ok icon ∧
      polybar_out p 4 timeRem =
        .ok ["%\x7bF#" ++ get_color p ++ "\x7d " ++ icon ++ " %\x7bF#" ++ color_default ++ "\x7d" ++
          formatFloatF p 2 ++ "% %!f(string=" ++ String.mk (timeRem.toList.take 2) ++
          ")%!s(MISSING)\n"] := by
  have hlev := dischargeLevel_eq p hv hlo hhi
  have hrange : 0 ≤ max 0 (min ⌊F64.toRat p / 10⌋ 9) ∧ max 0 (min ⌊F64.toRat p / 10⌋ 9) ≤ 9 := by
    constructor <;> omega
  obtain ⟨icon, hicon⟩ := iconAt_ok _ hrange.1 hrange.2
  refine ⟨icon, hicon, ?_⟩
  rw [polybar_out_discharging p timeRem icon _ (isNaN_of_lt p _ hhi) hlev hicon,
    sprintf_discharging]
  rfl

end PolybarAB

namespace PolybarAB

/-! ## Decimal text and `time.ParseDuration` -/

theorem digitChar_digit (d : Nat) (h : d < 10) :
    ¬ (Nat.digitChar d < '0' ∨ '9' < Nat.digitChar d) ∧ (Nat.digitChar d).toNat - 48 = d ∧
      Nat.digitChar d ≠ '-' ∧ Nat.digitChar d ≠ '+' ∧ Nat.digitChar d ≠ '.' := by
  interval_cases d <;> decide

theorem toDigitsCore_append (fuel : Nat) :
    ∀ n ds, n < fuel → Nat.toDigitsCore 10 fuel n ds = Nat.toDigits 10 n ++ ds := by
  induction fuel using Nat.strong_induction_on with
  | _ fuel ih =>
    intro n ds hn
    cases fuel with
    | zero => omega
    | succ f =>
      by_cases h0 : n / 10 = 0
      · simp [Nat.toDigits, Nat.toDigitsCore, h0]
      · have hlt : n / 10 < n := Nat.div_lt_self (by omega) (by norm_num)
        have e1 : Nat.toDigitsCore 10 (f + 1) n ds =
            Nat.toDigitsCore 10 f (n / 10) (Nat.digitChar (n % 10) :: ds) := by
          simp [Nat.toDigitsCore, h0]
        have e2 : Nat.toDigits 10 n =
            Nat.toDigitsCore 10 n (n / 10) [Nat.digitChar (n % 10)] := by
          simp [Nat.toDigits, Nat.toDigitsCore, h0]
        rw [e1, e2, ih f (by omega) (n / 10) _ (by omega), ih n (by omega) (n / 10) _ hlt]
        simp

theorem toDigits_small (n : Nat) (h : n < 10) : Nat.toDigits 10 n = [Nat.digitChar n] := by
  have h0 : n / 10 = 0 := by omega
  have h1 : n % 10 = n := by omega
  simp [Nat.toDigits, Nat.toDigitsCore, h0, h1]

theorem toDigits_step (n : Nat) (h : 10 ≤ n) :
    Nat.toDigits 10 n = Nat.toDigits 10 (n / 10) ++ [Nat.digitChar (n % 10)] := by
  have h0 : n / 10 ≠ 0 := by omega
  have hlt : n / 10 < n := Nat.div_lt_self (by omega) (by norm_num)
  have e2 : Nat.toDigits 10 n =
      Nat.toDigitsCore 10 n (n / 10) [Nat.digitChar (n % 10)] := by
    simp [Nat.toDigits, Nat.toDigitsCore, h0]
  rw [e2, toDigitsCore_append n (n / 10) _ hlt]

theorem leadingInt_digit (d : Nat) (hd : d < 10) (rest : List Char) (x : Nat)
    (hx : x ≤ 2 ^ 63 / 10) (hy : x * 10 + d ≤ 2 ^ 63) :
    leadingInt (Nat.digitChar d :: rest) x = leadingInt rest (x * 10 + d) := by
  obtain ⟨h1, h2, _⟩ := digitChar_digit d hd
  rw [leadingInt, if_neg h1, if_neg (by omega), h2]
  simp only []
  rw [if_neg (by omega)]

theorem leadingInt_toDigits (n : Nat) :
    n ≤ 2 ^ 63 → ∀ rest, leadingInt (Nat.toDigits 10 n ++ rest) 0 = leadingInt rest n := by
  induction n using Nat.strong_induction_on with
  | _ n ih =>
    intro hn rest
    by_cases h : n < 10
    · rw [toDigits_small n h]
      have := leadingInt_digit n h rest 0 (by norm_num) (by omega)
      simpa using this
    · have hstep := toDigits_step n (by omega)
      rw [hstep, List.append_assoc, ih (n / 10) (by omega) (by omega)]
      have := leadingInt_digit (n % 10) (by omega) rest (n / 10) (by omega) (by omega)
      simp only [List.singleton_append]
      rw [this]
      congr 1
      omega

theorem toDigits_head (n : Nat) :
    ∃ c tl, Nat.toDigits 10 n = c :: tl ∧ ¬ (c < '0' ∨ '9' < c) ∧ c ≠ '-' ∧ c ≠ '+' ∧ c ≠ '.' := by
  induction n using Nat.strong_induction_on with
  | _ n ih =>
    by_cases h : n < 10
    · obtain ⟨h1, _, h3, h4, h5⟩ := digitChar_digit n h
      exact ⟨_, [], toDigits_small n h, h1, h3, h4, h5⟩
    · obtain ⟨c, tl, hc, hrest⟩ := ih (n / 10) (by omega)
      refine ⟨c, tl ++ [Nat.digitChar (n % 10)], ?_, hrest⟩
      rw [toDigits_step n (by omega), hc]
      rfl

end PolybarAB

namespace PolybarAB

/-! ## Values of float64 operations on non-negative operands -/

theorem F64.rheQ_zero : F64.rheQ 0 = 0 := by
  have := F64.rheQ_intCast 0
  simpa using this

theorem F64.rndQ_zero : F64.rndQ 0 = 0 := by
  unfold F64.rndQ
  simp [F64.rheQ_zero]

theorem F64.rndQ_nonneg (a : ℚ) (ha : 0 ≤ a) : 0 ≤ F64.rndQ a := by
  rcases eq_or_lt_of_le ha with h | h
  · rw [← h, F64.rndQ_zero]
  · have := F64.sig_nonneg a h
    unfold F64.rndQ
    have h2 : (0 : ℚ) ≤ ((F64.rheQ (a / (2 : ℚ) ^ F64.expQ a) : ℤ) : ℚ) := by exact_mod_cast this
    positivity

theorem F64.rndQ_mono' (a b : ℚ) (ha : 0 ≤ a) (hab : a ≤ b) : F64.rndQ a ≤ F64.rndQ b := by
  rcases eq_or_lt_of_le ha with h | h
  · rw [← h, F64.rndQ_zero]
    exact F64.rndQ_nonneg b (le_trans ha hab)
  · exact F64.rndQ_mono a b h hab

theorem F64.rndQ_exact' (m : Nat) (e : Int) (hm : m < 2 ^ 53) (he : -1074 ≤ e) :
    F64.rndQ ((m : ℚ) * (2 : ℚ) ^ e) = (m : ℚ) * (2 : ℚ) ^ e := by
  rcases Nat.eq_zero_or_pos m with h | h
  · subst h; simp [F64.rndQ_zero]
  · exact F64.rndQ_exact m e h hm he

/-- The rounding of a non-negative quotient bounded by a representable
number returns a finite float64 whose value is that of `rndQ`, within the
bound. -/
theorem F64.round_val_le (N D : Nat) (X : Int) (hD : 0 < D) (mc : Nat) (ec : Int)
    (hmc : mc < 2 ^ 53) (hec1 : -1074 ≤ ec) (hec2 : ec ≤ 971)
    (hle : (N : ℚ) / D * (2 : ℚ) ^ X ≤ (mc : ℚ) * (2 : ℚ) ^ ec) :
    ∃ m e, F64.round false N D X = F64.fin false m e ∧
      (m : ℚ) * (2 : ℚ) ^ e = F64.rndQ ((N : ℚ) / D * (2 : ℚ) ^ X) ∧
      (m : ℚ) * (2 : ℚ) ^ e ≤ (mc : ℚ) * (2 : ℚ) ^ ec := by
  have hDq : (0 : ℚ) < D := by exact_mod_cast hD
  have hnn : (0 : ℚ) ≤ (N : ℚ) / D * (2 : ℚ) ^ X := by positivity
  have hbound : F64.rndQ ((N : ℚ) / D * (2 : ℚ) ^ X) ≤ (mc : ℚ) * (2 : ℚ) ^ ec := by
    have := F64.rndQ_mono' _ _ hnn hle
    rwa [F64.rndQ_exact' mc ec hmc hec1] at this
  rcases Nat.eq_zero_or_pos N with h0 | h0
  · subst h0
    refine ⟨0, 0, by simp [F64.round], ?_, by simp; positivity⟩
    simp [F64.rndQ_zero]
  · rcases F64.round_spec false N D X h0 hD with ⟨_, hbig⟩ | ⟨m, e, hr, _, _, _, hv⟩
    · exfalso
      have h1 : (mc : ℚ) * (2 : ℚ) ^ ec < (2 : ℚ) ^ (1024 : ℤ) := by
        have hmq : (mc : ℚ) < 2 ^ 53 := by exact_mod_cast hmc
        have h2 : (2 : ℚ) ^ ec ≤ (2 : ℚ) ^ (971 : ℤ) := zpow_le_zpow_right₀ (by norm_num) hec2
        have h3 : (2 : ℚ) ^ 53 * (2 : ℚ) ^ (971 : ℤ) = (2 : ℚ) ^ (1024 : ℤ) := by
          rw [← zpow_natCast (2 : ℚ) 53, ← zpow_add₀ (by norm_num)]; norm_num
        calc (mc : ℚ) * (2 : ℚ) ^ ec ≤ (mc : ℚ) * (2 : ℚ) ^ (971 : ℤ) :=
              mul_le_mul_of_nonneg_left h2 (by positivity)
          _ < (2 : ℚ) ^ 53 * (2 : ℚ) ^ (971 : ℤ) := mul_lt_mul_of_pos_right hmq (by positivity)
          _ = (2 : ℚ) ^ (1024 : ℤ) := h3
      linarith
    · exact ⟨m, e, hr, hv, by rw [hv]; exact hbound⟩

/-- A rounding whose exact result is a natural number below 2^53 returns
that number. -/
theorem F64.round_exact_nat (N D : Nat) (X : Int) (k : Nat) (hD : 0 < D) (hk : k < 2 ^ 53)
    (h : (N : ℚ) / D * (2 : ℚ) ^ X = (k : ℚ)) :
    ∃ m e, F64.round false N D X = F64.fin false m e ∧ (m : ℚ) * (2 : ℚ) ^ e = (k : ℚ) := by
  have hle : (N : ℚ) / D * (2 : ℚ) ^ X ≤ (k : ℚ) * (2 : ℚ) ^ (0 : ℤ) := by simp [h]
  obtain ⟨m, e, hr, hv, _⟩ := F64.round_val_le N D X hD k 0 hk (by norm_num) (by norm_num) hle
  refine ⟨m, e, hr, ?_⟩
  rw [hv, h]
  have := F64.rndQ_exact' k 0 hk (by norm_num)
  simpa using this

theorem F64.ofInt_natCast (k : Nat) (hk : k < 2 ^ 53) :
    ∃ m e, F64.ofInt (k : ℤ) = F64.fin false m e ∧ (m : ℚ) * (2 : ℚ) ^ e = (k : ℚ) := by
  have h1 : decide ((k : ℤ) < 0) = false := by simp
  have h2 : (k : ℤ).natAbs = k := Int.natAbs_ofNat k
  unfold F64.ofInt
  rw [h1, h2]
  exact F64.round_exact_nat k 1 0 k (by norm_num) hk (by simp)

theorem F64.toUint64_nat (m : Nat) (e : Int) (k : Nat) (hk : k < 2 ^ 64)
    (h : (m : ℚ) * (2 : ℚ) ^ e = (k : ℚ)) : F64.toUint64 (F64.fin false m e) = some k := by
  have hc := F64.truncNat_cast m e
  rw [h, Int.floor_natCast] at hc
  have hc' : (if 0 ≤ e then m * 2 ^ e.toNat else m / 2 ^ (-e).toNat) = k := by exact_mod_cast hc
  unfold F64.toUint64
  simp only [hc']
  have hk' : k < 18446744073709551616 := by norm_num at hk; exact hk
  by_cases h0 : k = 0
  · simp [h0]
  · simp [h0, hk']

/-- The float64 sum of two non-negative finite operands, when the exact sum
is bounded by a representable number. -/
theorem F64.add_val_le (m1 : Nat) (e1 : Int) (m2 : Nat) (e2 : Int) (mc : Nat) (ec : Int)
    (hmc : mc < 2 ^ 53) (hec1 : -1074 ≤ ec) (hec2 : ec ≤ 971)
    (hle : (m1 : ℚ) * (2 : ℚ) ^ e1 + (m2 : ℚ) * (2 : ℚ) ^ e2 ≤ (mc : ℚ) * (2 : ℚ) ^ ec) :
    ∃ m e, F64.add (F64.fin false m1 e1) (F64.fin false m2 e2) = F64.fin false m e ∧
      (m : ℚ) * (2 : ℚ) ^ e =
        F64.rndQ ((m1 : ℚ) * (2 : ℚ) ^ e1 + (m2 : ℚ) * (2 : ℚ) ^ e2) ∧
      (m : ℚ) * (2 : ℚ) ^ e ≤ (mc : ℚ) * (2 : ℚ) ^ ec := by
  have s1 := F64.scaled_cast false m1 e1 (min e1 e2) (min_le_left _ _)
  have s2 := F64.scaled_cast false m2 e2 (min e1 e2) (min_le_right _ _)
  rw [F64.val_false] at s1 s2
  have hp : (0 : ℚ) < (2 : ℚ) ^ (min e1 e2) := by positivity
  set z : ℤ := F64.scaled false m1 e1 (min e1 e2) + F64.scaled false m2 e2 (min e1 e2) with hz
  have hzq : (z : ℚ) * (2 : ℚ) ^ (min e1 e2) =
      (m1 : ℚ) * (2 : ℚ) ^ e1 + (m2 : ℚ) * (2 : ℚ) ^ e2 := by
    rw [hz]
    push_cast
    rw [s1, s2]
    field_simp
  have hz0 : 0 ≤ z := by
    have h1 : 0 ≤ F64.scaled false m1 e1 (min e1 e2) := by
      simp only [F64.scaled, Bool.false_eq_true, if_false]; exact Int.natCast_nonneg _
    have h2 : 0 ≤ F64.scaled false m2 e2 (min e1 e2) := by
      simp only [F64.scaled, Bool.false_eq_true, if_false]; exact Int.natCast_nonneg _
    omega
  have hadd : F64.add (F64.fin false m1 e1) (F64.fin false m2 e2) =
      if z = 0 then F64.fin false 0 0 else F64.round false z.natAbs 1 (min e1 e2) := by
    have : decide (z < 0) = false := by simp [hz0]
    simp only [F64.add, Bool.and_self]
    rw [← hz, this]
  have hnat : ((z.natAbs : Nat) : ℚ) = (z : ℚ) := by
    have : (((z.natAbs : Nat) : ℤ) : ℚ) = (z : ℚ) := by rw [Int.natAbs_of_nonneg hz0]
    rwa [Int.cast_natCast] at this
  have ha : ((z.natAbs : Nat) : ℚ) / ((1 : Nat) : ℚ) * (2 : ℚ) ^ (min e1 e2) =
      (m1 : ℚ) * (2 : ℚ) ^ e1 + (m2 : ℚ) * (2 : ℚ) ^ e2 := by
    rw [hnat, Nat.cast_one, div_one, hzq]
  rw [hadd]
  by_cases h0 : z = 0
  · rw [if_pos h0]
    have hsum : (m1 : ℚ) * (2 : ℚ) ^ e1 + (m2 : ℚ) * (2 : ℚ) ^ e2 = 0 := by
      rw [← hzq, h0]; simp
    refine ⟨0, 0, rfl, ?_, by rw [hsum] at hle; simpa using hle⟩
    rw [hsum, F64.rndQ_zero]
    simp
  · rw [if_neg h0]
    obtain ⟨m, e, hr, hv, hb⟩ := F64.round_val_le z.natAbs 1 (min e1 e2) (by norm_num) mc ec hmc
      hec1 hec2 (by rw [ha]; exact hle)
    rw [ha] at hv
    exact ⟨m, e, hr, hv, hb⟩

/-- The float64 quotient of two non-negative finite operands, the divisor
positive, when the exact quotient is bounded by a representable number. -/
theorem F64.div_val_le (m1 : Nat) (e1 : Int) (m2 : Nat) (e2 : Int) (mc : Nat) (ec : Int)
    (hm2 : 0 < m2) (hmc : mc < 2 ^ 53) (hec1 : -1074 ≤ ec) (hec2 : ec ≤ 971)
    (hle : (m1 : ℚ) * (2 : ℚ) ^ e1 / ((m2 : ℚ) * (2 : ℚ) ^ e2) ≤ (mc : ℚ) * (2 : ℚ) ^ ec) :
    ∃ m e, F64.div (F64.fin false m1 e1) (F64.fin false m2 e2) = F64.fin false m e ∧
      (m : ℚ) * (2 : ℚ) ^ e =
        F64.rndQ ((m1 : ℚ) * (2 : ℚ) ^ e1 / ((m2 : ℚ) * (2 : ℚ) ^ e2)) ∧
      (m : ℚ) * (2 : ℚ) ^ e ≤ (mc : ℚ) * (2 : ℚ) ^ ec := by
  have hm2q : (m2 : ℚ) ≠ 0 := by exact_mod_cast hm2.ne'
  have ha : (m1 : ℚ) / (m2 : ℚ) * (2 : ℚ) ^ (e1 - e2) =
      (m1 : ℚ) * (2 : ℚ) ^ e1 / ((m2 : ℚ) * (2 : ℚ) ^ e2) := by
    rw [zpow_sub₀ (by norm_num)]
    field_simp
  have hdiv : F64.div (F64.fin false m1 e1) (F64.fin false m2 e2) =
      F64.round false m1 m2 (e1 - e2) := by
    simp [F64.div, hm2.ne']
  rw [hdiv]
  obtain ⟨m, e, hr, hv, hb⟩ := F64.round_val_le m1 m2 (e1 - e2) hm2 mc ec hmc hec1 hec2
    (by rw [ha]; exact hle)
  rw [ha] at hv
  exact ⟨m, e, hr, hv, hb⟩

/-- The float64 product of two non-negative finite operands, when the exact
product is a natural number below 2^53. -/
theorem F64.mul_exact_nat (m1 : Nat) (e1 : Int) (m2 : Nat) (e2 : Int) (k : Nat) (hk : k < 2 ^ 53)
    (h : (m1 : ℚ) * (2 : ℚ) ^ e1 * ((m2 : ℚ) * (2 : ℚ) ^ e2) = (k : ℚ)) :
    ∃ m e, F64.mul (F64.fin false m1 e1) (F64.fin false m2 e2) = F64.fin false m e ∧
      (m : ℚ) * (2 : ℚ) ^ e = (k : ℚ) := by
  have hmul : F64.mul (F64.fin false m1 e1) (F64.fin false m2 e2) =
      F64.round false (m1 * m2) 1 (e1 + e2) := by
    simp [F64.mul]
  rw [hmul]
  apply F64.round_exact_nat _ 1 _ k (by norm_num) hk
  rw [← h, zpow_add₀ (by norm_num)]
  push_cast
  ring

end PolybarAB

namespace PolybarAB

/-! ## `Duration.Hours` and `Duration.Minutes` truncated -/

theorem int64Of_some (x : F64) (i : ℤ) (h : F64.toInt64 x = some i) : int64Of x = .ok i := by
  unfold int64Of
  rw [h]

/-- The float64 `q + r/U` that `Duration.Hours` and `Duration.Minutes` build
from quotient and remainder truncates to the quotient, provided the
remainder stays `2^-j` of a unit below `U`. -/
theorem duration_floor (d U j : Nat) (hU : 0 < U) (hU53 : U < 2 ^ 53) (hj : j ≤ 52)
    (hq : (d / U + 1) * 2 ^ j ≤ 2 ^ 53) (hfrac : (d % U) * 2 ^ j ≤ U * (2 ^ j - 1)) :
    F64.lt (F64.add (F64.ofInt ((d / U : Nat) : ℤ))
        (F64.div (F64.ofInt ((d % U : Nat) : ℤ)) (F64.ofNat U))) (F64.ofNat 0) = false ∧
    int64Of (F64.add (F64.ofInt ((d / U : Nat) : ℤ))
        (F64.div (F64.ofInt ((d % U : Nat) : ℤ)) (F64.ofNat U))) = .ok ((d / U : Nat) : ℤ) := by
  have h2j : 1 ≤ 2 ^ j := Nat.one_le_two_pow
  have hqlt : d / U < 2 ^ 53 := by nlinarith
  have hrlt : d % U < 2 ^ 53 := lt_trans (Nat.mod_lt _ hU) hU53
  have hUq : (0 : ℚ) < (U : ℚ) := by exact_mod_cast hU
  have hjq : (0 : ℚ) < (2 : ℚ) ^ j := by positivity
  have hzj : (2 : ℚ) ^ (-(j : ℤ)) = 1 / (2 : ℚ) ^ j := by
    rw [zpow_neg, zpow_natCast]; simp
  obtain ⟨mh, eh, hH, vH⟩ := F64.ofInt_natCast (d / U) hqlt
  obtain ⟨mn, en, hN, vN⟩ := F64.ofInt_natCast (d % U) hrlt
  -- the fraction
  have e1 : ((2 ^ j - 1 : Nat) : ℚ) = (2 : ℚ) ^ j - 1 := by
    rw [Nat.cast_sub h2j]; push_cast; ring
  have hfracq : ((d % U : Nat) : ℚ) * (2 : ℚ) ^ j ≤ (U : ℚ) * ((2 : ℚ) ^ j - 1) := by
    have := (Nat.cast_le (α := ℚ)).2 hfrac
    rw [Nat.cast_mul, Nat.cast_mul, e1] at this
    push_cast at this
    exact this
  have hfq : (mn : ℚ) * (2 : ℚ) ^ en / ((U : ℚ) * (2 : ℚ) ^ (0 : ℤ)) ≤
      ((2 ^ j - 1 : Nat) : ℚ) * (2 : ℚ) ^ (-(j : ℤ)) := by
    rw [vN, zpow_zero, mul_one, hzj, e1, div_le_iff₀ hUq]
    have h3 : ((2 : ℚ) ^ j - 1) * (1 / (2 : ℚ) ^ j) * (U : ℚ) =
        (U : ℚ) * ((2 : ℚ) ^ j - 1) / (2 : ℚ) ^ j := by field_simp; ring
    rw [h3, le_div_iff₀ hjq]
    exact hfracq
  have hmc1 : 2 ^ j - 1 < 2 ^ 53 := by
    have : 2 ^ j ≤ 2 ^ 52 := Nat.pow_le_pow_right (by norm_num) hj
    omega
  obtain ⟨mf, ef, hF, vF, bF⟩ := F64.div_val_le mn en U 0 (2 ^ j - 1) (-(j : ℤ)) hU hmc1
    (by omega) (by omega) hfq
  have hF0 : (0 : ℚ) ≤ (mf : ℚ) * (2 : ℚ) ^ ef := by positivity
  -- the sum
  have hmc2 : (d / U + 1) * 2 ^ j - 1 < 2 ^ 53 := by
    have h1 : 1 ≤ (d / U + 1) * 2 ^ j := Nat.mul_pos (Nat.succ_pos _) (by positivity)
    generalize (d / U + 1) * 2 ^ j = t at hq h1 ⊢
    omega
  have hcq : (((d / U + 1) * 2 ^ j - 1 : Nat) : ℚ) * (2 : ℚ) ^ (-(j : ℤ)) =
      ((d / U : Nat) : ℚ) + 1 - 1 / (2 : ℚ) ^ j := by
    have h1 : 1 ≤ (d / U + 1) * 2 ^ j := Nat.mul_pos (Nat.succ_pos _) (by positivity)
    rw [hzj, Nat.cast_sub h1]
    push_cast
    field_simp
  have hsum : (mh : ℚ) * (2 : ℚ) ^ eh + (mf : ℚ) * (2 : ℚ) ^ ef ≤
      (((d / U + 1) * 2 ^ j - 1 : Nat) : ℚ) * (2 : ℚ) ^ (-(j : ℤ)) := by
    rw [hcq, vH]
    rw [hzj, e1] at bF
    have : ((2 : ℚ) ^ j - 1) * (1 / (2 : ℚ) ^ j) = 1 - 1 / (2 : ℚ) ^ j := by field_simp
    rw [this] at bF
    linarith
  rw [hH, hN]
  have hofU : F64.ofNat U = F64.fin false U 0 := rfl
  rw [hofU, hF]
  obtain ⟨m, e, hA, vA, bA⟩ := F64.add_val_le mh eh mf ef ((d / U + 1) * 2 ^ j - 1) (-(j : ℤ)) hmc2
    (by omega) (by omega) hsum
  rw [hA]
  have hlow : ((d / U : Nat) : ℚ) ≤ (m : ℚ) * (2 : ℚ) ^ e := by
    rw [vA]
    have h1 : (0 : ℚ) ≤ (mh : ℚ) * (2 : ℚ) ^ eh := by positivity
    have := F64.rndQ_mono' _ _ h1 (by linarith : (mh : ℚ) * (2 : ℚ) ^ eh ≤
      (mh : ℚ) * (2 : ℚ) ^ eh + (mf : ℚ) * (2 : ℚ) ^ ef)
    rw [vH] at this
    have hex := F64.rndQ_exact' (d / U) 0 hqlt (by norm_num)
    simp only [zpow_zero, mul_one] at hex
    rw [hex] at this
    rw [vH]
    exact this
  have hupp : (m : ℚ) * (2 : ℚ) ^ e < ((d / U : Nat) : ℚ) + 1 := by
    rw [hcq] at bA
    have : (0 : ℚ) < 1 / (2 : ℚ) ^ j := by positivity
    linarith
  constructor
  · have hnn : (0 : ℚ) ≤ (m : ℚ) * (2 : ℚ) ^ e := by positivity
    cases hlt : F64.lt (F64.fin false m e) (F64.ofNat 0) with
    | false => rfl
    | true =>
      exfalso
      rw [F64.ofNat, F64.lt_fin_iff, F64.val_false, F64.val_false] at hlt
      simp at hlt
      linarith
  · have h63 : (m : ℚ) * (2 : ℚ) ^ e < 2 ^ 63 := by
      have : ((d / U : Nat) : ℚ) + 1 ≤ 2 ^ 53 := by exact_mod_cast (by omega : d / U + 1 ≤ 2 ^ 53)
      have h2 : (2 : ℚ) ^ 53 < 2 ^ 63 := by norm_num
      linarith
    have hfl : ⌊(m : ℚ) * (2 : ℚ) ^ e⌋ = ((d / U : Nat) : ℤ) := by
      rw [Int.floor_eq_iff]
      exact ⟨by exact_mod_cast hlow, by exact_mod_cast hupp⟩
    have h := F64.toInt64_pos m e h63
    rw [hfl] at h
    exact int64Of_some _ _ h

theorem Duration_Hours_natCast (d : Nat) :
    Duration_Hours (d : ℤ) =
      F64.add (F64.ofInt ((d / 3600000000000 : Nat) : ℤ))
        (F64.div (F64.ofInt ((d % 3600000000000 : Nat) : ℤ)) (F64.ofNat 3600000000000)) := rfl

theorem Duration_Minutes_natCast (d : Nat) :
    Duration_Minutes (d : ℤ) =
      F64.add (F64.ofInt ((d / 60000000000 : Nat) : ℤ))
        (F64.div (F64.ofInt ((d % 60000000000 : Nat) : ℤ)) (F64.ofNat 60000000000)) := rfl

/-- For a duration of `n` millionths of an hour that fits int64, the hours
and minutes `timeRemaining` prints are the truncated quotients. -/
theorem duration_hours_minutes (n : Nat) (hfit : n * 3600000 ≤ 2 ^ 63 - 1) :
    F64.lt (Duration_Hours ((n * 3600000 : Nat) : ℤ)) (F64.ofNat 0) = false ∧
    int64Of (Duration_Hours ((n * 3600000 : Nat) : ℤ)) =
      .ok ((n * 3600000 / 3600000000000 : Nat) : ℤ) ∧
    int64Of (Duration_Minutes ((n * 3600000 : Nat) : ℤ)) =
      .ok ((n * 3600000 / 60000000000 : Nat) : ℤ) := by
  have hfit' : n * 3600000 ≤ 9223372036854775807 := by norm_num at hfit; exact hfit
  have hH := duration_floor (n * 3600000) 3600000000000 20 (by norm_num) (by norm_num)
    (by norm_num) (by norm_num; omega) (by norm_num; omega)
  have hM := duration_floor (n * 3600000) 60000000000 16 (by norm_num) (by norm_num)
    (by norm_num) (by norm_num; omega) (by norm_num; omega)
  rw [Duration_Hours_natCast, Duration_Minutes_natCast]
  exact ⟨hH.1, hH.2, hM.2⟩

end PolybarAB

namespace PolybarAB

/-! ## The text of a duration, printed and parsed back -/

theorem sprintf_fh (m : Nat) (e : Int) :
    Sprintf "%fh" [GoArg.f64 (F64.fin false m e)] =
      .ok (String.mk (Nat.toDigits 10 (microHours m e / 10 ^ 6) ++
        '.' :: (fracDigits 6 (microHours m e) ++ ['h']))) := by
  simp [Sprintf, sprintfScan, applyVerb, formatFloatF, microHours]
  rw [String.ext_iff]
  simp [String.data_push, String.data_append]

theorem leadingFraction_digit (d : Nat) (hd : d < 10) (rest : List Char) (x : Nat) (scale : F64)
    (hx : x ≤ 99999) :
    leadingFraction (Nat.digitChar d :: rest) x scale false =
      leadingFraction rest (x * 10 + d) (F64.mul scale (F64.ofNat 10)) false := by
  obtain ⟨h1, h2, _⟩ := digitChar_digit d hd
  rw [leadingFraction, if_neg h1, h2]
  simp only [Bool.false_eq_true, if_false]
  rw [if_neg (by omega), if_neg (by omega)]

theorem leadingFraction_six (n : Nat) :
    leadingFraction (fracDigits 6 n ++ ['h']) 0 (F64.ofNat 1) false =
      (n % 1000000, F64.fin false 8589934592000000 (-33), ['h']) := by
  have hs : F64.mul (F64.mul (F64.mul (F64.mul (F64.mul (F64.mul (F64.ofNat 1) (F64.ofNat 10))
      (F64.ofNat 10)) (F64.ofNat 10)) (F64.ofNat 10)) (F64.ofNat 10)) (F64.ofNat 10) =
      F64.fin false 8589934592000000 (-33) := by decide
  simp only [fracDigits, List.cons_append, List.nil_append]
  rw [leadingFraction_digit _ (Nat.mod_lt _ (by norm_num)) _ _ _ (by omega),
    leadingFraction_digit _ (Nat.mod_lt _ (by norm_num)) _ _ _ (by omega),
    leadingFraction_digit _ (Nat.mod_lt _ (by norm_num)) _ _ _ (by omega),
    leadingFraction_digit _ (Nat.mod_lt _ (by norm_num)) _ _ _ (by omega),
    leadingFraction_digit _ (Nat.mod_lt _ (by norm_num)) _ _ _ (by omega),
    leadingFraction_digit _ (Nat.mod_lt _ (by norm_num)) _ _ _ (by omega), hs]
  have hh : leadingFraction ['h'] = fun x scale _ => (x, scale, ['h']) := by
    funext x scale ov
    rw [leadingFraction]
    simp
  rw [hh]
  simp only [Prod.mk.injEq, and_true]
  norm_num
  omega

theorem fraction_nanoseconds (f : Nat) (hf : f < 1000000) :
    F64.toUint64 (F64.mul (F64.ofInt (f : ℤ))
      (F64.div (F64.ofInt ((3600000000000 : Nat) : ℤ)) (F64.fin false 8589934592000000 (-33)))) =
      some (f * 3600000) := by
  have hd : F64.div (F64.ofInt ((3600000000000 : Nat) : ℤ))
      (F64.fin false 8589934592000000 (-33)) = F64.fin false 7730941132800000 (-31) := by decide
  obtain ⟨mf, ef, hF, vF⟩ := F64.ofInt_natCast f (by omega)
  rw [hd, hF]
  obtain ⟨m, e, hM, vM⟩ := F64.mul_exact_nat mf ef 7730941132800000 (-31) (f * 3600000)
    (by omega) (by rw [vF]; push_cast; norm_num)
  rw [hM]
  exact F64.toUint64_nat m e _ (by omega) vM

end PolybarAB

namespace PolybarAB

theorem parseGroups_hours (n : Nat) (hfit : n * 3600000 ≤ 2 ^ 63 - 1) (fuel : Nat) :
    parseGroups (fuel + 2)
      (Nat.toDigits 10 (n / 10 ^ 6) ++ '.' :: (fracDigits 6 n ++ ['h'])) 0 =
      some (n * 3600000) := by
  have hfit' : n * 3600000 ≤ 9223372036854775807 := by norm_num at hfit; exact hfit
  obtain ⟨c, tl, hc, hdig, _, _, hdot⟩ := toDigits_head (n / 10 ^ 6)
  have hli : leadingInt (Nat.toDigits 10 (n / 10 ^ 6) ++ '.' :: (fracDigits 6 n ++ ['h'])) 0 =
      some (n / 10 ^ 6, '.' :: (fracDigits 6 n ++ ['h'])) := by
    rw [leadingInt_toDigits _ (by norm_num; omega), leadingInt]
    simp
  have hc' : ¬ ¬ (c = '.' ∨ ('0' ≤ c ∧ c ≤ '9')) := by
    rw [not_not]
    right
    rw [not_or, not_lt, not_lt] at hdig
    exact hdig
  rw [hc] at hli ⊢
  rw [List.cons_append] at hli ⊢
  rw [parseGroups, if_neg hc', hli]
  simp only [leadingFraction_six]
  have htw : List.takeWhile (fun c => decide ¬(c = '.' ∨ '0' ≤ c ∧ c ≤ '9')) ['h'] = ['h'] := by
    decide
  have hdw : List.dropWhile (fun c => decide ¬(c = '.' ∨ '0' ≤ c ∧ c ≤ '9')) ['h'] = [] := by
    decide
  have hum : unitMap { data := ['h'] } = some 3600000000000 := by decide
  have hlen : (fracDigits 6 n ++ ['h']).length = 7 := by simp [fracDigits]
  have hpre : (!decide ((c :: (tl ++ '.' :: (fracDigits 6 n ++ ['h']))).length ≠
      ('.' :: (fracDigits 6 n ++ ['h'])).length) &&
      !decide ((fracDigits 6 n ++ ['h']).length ≠ ['h'].length)) = false := by
    simp [hlen]
  rw [hpre, htw, hdw, hum]
  simp only [Bool.false_eq_true, if_false, List.cons_ne_nil, Nat.zero_add]
  have hI : ¬ (n / 10 ^ 6 > 2 ^ 63 / 3600000000000) := by norm_num; omega
  rw [if_neg hI]
  by_cases hF : 0 < n % 1000000
  · rw [if_pos hF, fraction_nanoseconds _ (Nat.mod_lt _ (by norm_num))]
    simp only []
    have hv : (n / 10 ^ 6 * 3600000000000 + n % 1000000 * 3600000) % 2 ^ 64 = n * 3600000 := by
      norm_num; omega
    rw [hv]
    have h1 : ¬ (0 < n % 1000000 ∧ n * 3600000 > 2 ^ 63) := by norm_num; omega
    have h2 : n * 3600000 % 2 ^ 64 = n * 3600000 := by norm_num; omega
    have h3 : ¬ (n * 3600000 > 2 ^ 63) := by norm_num; omega
    rw [if_neg h1, h2, if_neg h3, parseGroups]
  · rw [if_neg hF]
    simp only []
    have hv : n / 10 ^ 6 * 3600000000000 = n * 3600000 := by norm_num; omega
    rw [hv]
    have h1 : ¬ (0 < n % 1000000 ∧ n * 3600000 > 2 ^ 63) := by norm_num; omega
    have h2 : n * 3600000 % 2 ^ 64 = n * 3600000 := by norm_num; omega
    have h3 : ¬ (n * 3600000 > 2 ^ 63) := by norm_num; omega
    rw [if_neg h1, h2, if_neg h3, parseGroups]

end PolybarAB

namespace PolybarAB

theorem parseDuration_hours (n : Nat) (hfit : n * 3600000 ≤ 2 ^ 63 - 1) :
    ParseDuration (String.mk (Nat.toDigits 10 (n / 10 ^ 6) ++ '.' :: (fracDigits 6 n ++ ['h']))) =
      some ((n * 3600000 : Nat) : ℤ) := by
  have hpg := parseGroups_hours n hfit
  obtain ⟨c, tl, hc, _, hminus, hplus, _⟩ := toDigits_head (n / 10 ^ 6)
  rw [hc] at hpg ⊢
  rw [List.cons_append] at hpg ⊢
  have hfit' : ¬ (n * 3600000 > 2 ^ 63 - 1) := by omega
  have hlen : (c :: (tl ++ '.' :: (fracDigits 6 n ++ ['h']))).length + 1 =
      (tl ++ '.' :: (fracDigits 6 n ++ ['h'])).length + 2 := by
    simp
  have hl : ({ data := c :: (tl ++ '.' :: (fracDigits 6 n ++ ['h'])) } : String).toList =
      c :: (tl ++ '.' :: (fracDigits 6 n ++ ['h'])) := rfl
  have hh : (c :: (tl ++ '.' :: (fracDigits 6 n ++ ['h']))).head? = some c := rfl
  have hcond : ¬ (some c = some '-' ∨ some c = some '+') := by
    simp [hminus, hplus]
  have hneg : decide (some c = some '-') = false := by simp [hminus]
  have h1 : ¬ (c :: (tl ++ '.' :: (fracDigits 6 n ++ ['h'])) = ['0']) := by simp
  have h2 : ¬ (c :: (tl ++ '.' :: (fracDigits 6 n ++ ['h'])) = []) := by simp
  unfold ParseDuration
  simp only [hl, hh]
  rw [if_neg hcond, if_neg h1, if_neg h2, hlen, hpg, hneg]
  simp only [Bool.false_eq_true, if_false, if_neg hfit']

theorem formatInt_natCast (k : Nat) : formatInt (k : ℤ) = Nat.repr k := by
  unfold formatInt
  rw [if_neg (by omega)]
  simp [Nat.repr, List.asString]

theorem sprintf_hours_minutes (icon : String) (h mins : Nat) :
    Sprintf "%s %dh %dm" [GoArg.str icon, GoArg.int (h : ℤ), GoArg.int (mins : ℤ)] =
      .ok (icon ++ " " ++ Nat.repr h ++ "h " ++ Nat.repr mins ++ "m") := by
  simp [Sprintf, sprintfScan, applyVerb, truncateString, formatInt_natCast]
  rw [String.ext_iff]
  simp [String.data_push, String.data_append]

theorem microHours_eq (m : Nat) (e : Int) :
    ((microHours m e : Nat) : ℤ) = F64.rheQ (F64.val false m e * 10 ^ 6) := by
  unfold microHours
  rw [F64.divRoundEven_cast _ _ (by positivity)]
  congr 1
  have := F64.shift_cast (m * 10 ^ 6) 1 e (by norm_num)
  rw [one_mul] at this
  rw [this, F64.val_false]
  push_cast
  ring

end PolybarAB

namespace PolybarAB

/-! ## Overflow in `time.ParseDuration` -/

theorem leadingInt_toDigits_overflow (n : Nat) :
    2 ^ 63 < n → ∀ rest, leadingInt (Nat.toDigits 10 n ++ rest) 0 = none := by
  induction n using Nat.strong_induction_on with
  | _ n ih =>
    intro hn rest
    have h10 : 10 ≤ n := by
      have : (10 : Nat) < 2 ^ 63 := by norm_num
      omega
    rw [toDigits_step n h10, List.append_assoc]
    by_cases hbig : 2 ^ 63 < n / 10
    · exact ih (n / 10) (by omega) hbig _
    · rw [leadingInt_toDigits (n / 10) (by omega)]
      obtain ⟨h1, h2, _⟩ := digitChar_digit (n % 10) (Nat.mod_lt _ (by norm_num))
      simp only [List.singleton_append]
      rw [leadingInt, if_neg h1, h2]
      by_cases hx : n / 10 > 2 ^ 63 / 10
      · rw [if_pos hx]
      · rw [if_neg hx]
        simp only []
        rw [if_pos (by omega)]

theorem parseGroups_hours_overflow (n : Nat) (hover : 2 ^ 63 - 1 < n * 3600000) (fuel : Nat) :
    parseGroups (fuel + 2)
      (Nat.toDigits 10 (n / 10 ^ 6) ++ '.' :: (fracDigits 6 n ++ ['h'])) 0 = none := by
  have hover' : 9223372036854775807 < n * 3600000 := by norm_num at hover; exact hover
  obtain ⟨c, tl, hc, hdig, _, _, hdot⟩ := toDigits_head (n / 10 ^ 6)
  have hc' : ¬ ¬ (c = '.' ∨ ('0' ≤ c ∧ c ≤ '9')) := by
    rw [not_not]
    right
    rw [not_or, not_lt, not_lt] at hdig
    exact hdig
  by_cases hI : 2 ^ 63 < n / 10 ^ 6
  · have hli := leadingInt_toDigits_overflow (n / 10 ^ 6) hI ('.' :: (fracDigits 6 n ++ ['h']))
    rw [hc] at hli ⊢
    rw [List.cons_append] at hli ⊢
    rw [parseGroups, if_neg hc', hli]
  · have hli : leadingInt (Nat.toDigits 10 (n / 10 ^ 6) ++ '.' :: (fracDigits 6 n ++ ['h'])) 0 =
        some (n / 10 ^ 6, '.' :: (fracDigits 6 n ++ ['h'])) := by
      rw [leadingInt_toDigits _ (by omega), leadingInt]
      simp
    rw [hc] at hli ⊢
    rw [List.cons_append] at hli ⊢
    rw [parseGroups, if_neg hc', hli]
    simp only [leadingFraction_six]
    have htw : List.takeWhile (fun c => decide ¬(c = '.' ∨ '0' ≤ c ∧ c ≤ '9')) ['h'] = ['h'] := by
      decide
    have hdw : List.dropWhile (fun c => decide ¬(c = '.' ∨ '0' ≤ c ∧ c ≤ '9')) ['h'] = [] := by
      decide
    have hum : unitMap { data := ['h'] } = some 3600000000000 := by decide
    have hlen : (fracDigits 6 n ++ ['h']).length = 7 := by simp [fracDigits]
    have hpre : (!decide ((c :: (tl ++ '.' :: (fracDigits 6 n ++ ['h']))).length ≠
        ('.' :: (fracDigits 6 n ++ ['h'])).length) &&
        !decide ((fracDigits 6 n ++ ['h']).length ≠ ['h'].length)) = false := by
      simp [hlen]
    rw [hpre, htw, hdw, hum]
    simp only [Bool.false_eq_true, if_false, List.cons_ne_nil, Nat.zero_add]
    by_cases hv : n / 10 ^ 6 > 2 ^ 63 / 3600000000000
    · rw [if_pos hv]
    · rw [if_neg hv]
      have hv' : n / 10 ^ 6 ≤ 2562047 := by norm_num at hv; omega
      have hF : 0 < n % 1000000 := by omega
      rw [if_pos hF, fraction_nanoseconds _ (Nat.mod_lt _ (by norm_num))]
      simp only []
      have hsum : (n / 10 ^ 6 * 3600000000000 + n % 1000000 * 3600000) % 2 ^ 64 =
          n * 3600000 := by
        norm_num; omega
      rw [hsum]
      have h1 : 0 < n % 1000000 ∧ n * 3600000 > 2 ^ 63 := ⟨hF, by norm_num; omega⟩
      rw [if_pos h1]

theorem parseDuration_hours_overflow (n : Nat) (hover : 2 ^ 63 - 1 < n * 3600000) :
    ParseDuration (String.mk (Nat.toDigits 10 (n / 10 ^ 6) ++ '.' :: (fracDigits 6 n ++ ['h']))) =
      none := by
  have hpg := parseGroups_hours_overflow n hover
  obtain ⟨c, tl, hc, _, hminus, hplus, _⟩ := toDigits_head (n / 10 ^ 6)
  rw [hc] at hpg ⊢
  rw [List.cons_append] at hpg ⊢
  have hlen : (c :: (tl ++ '.' :: (fracDigits 6 n ++ ['h']))).length + 1 =
      (tl ++ '.' :: (fracDigits 6 n ++ ['h'])).length + 2 := by
    simp
  have hl : ({ data := c :: (tl ++ '.' :: (fracDigits 6 n ++ ['h'])) } : String).toList =
      c :: (tl ++ '.' :: (fracDigits 6 n ++ ['h'])) := rfl
  have hh : (c :: (tl ++ '.' :: (fracDigits 6 n ++ ['h']))).head? = some c := rfl
  have hcond : ¬ (some c = some '-' ∨ some c = some '+') := by
    simp [hminus, hplus]
  have h1 : ¬ (c :: (tl ++ '.' :: (fracDigits 6 n ++ ['h'])) = ['0']) := by simp
  have h2 : ¬ (c :: (tl ++ '.' :: (fracDigits 6 n ++ ['h'])) = []) := by simp
  unfold ParseDuration
  simp only [hl, hh]
  rw [if_neg hcond, if_neg h1, if_neg h2, hlen, hpg]

end PolybarAB

namespace PolybarAB

/-! ## timeRemaining on a positive duration -/

theorem parseDuration_fits (n : Nat) (d : ℤ)
    (h : ParseDuration (String.mk (Nat.toDigits 10 (n / 10 ^ 6) ++
      '.' :: (fracDigits 6 n ++ ['h']))) = some d) :
    n * 3600000 ≤ 2 ^ 63 - 1 ∧ d = ((n * 3600000 : Nat) : ℤ) := by
  by_cases hfit : n * 3600000 ≤ 2 ^ 63 - 1
  · refine ⟨hfit, ?_⟩
    rw [parseDuration_hours n hfit] at h
    exact (Option.some.inj h).symm
  · rw [parseDuration_hours_overflow n (by omega)] at h
    cases h

theorem timeRemaining_fits (m : Nat) (e : Int) (hm : 0 < m)
    (hfit : microHours m e * 3600000 ≤ 2 ^ 63 - 1) :
    timeRemaining (F64.fin false m e) =
      .ok (clock_img ++ " " ++ Nat.repr (microHours m e * 3600000 / 3600000000000) ++ "h " ++
        Nat.repr (microHours m e * 3600000 / 60000000000) ++ "m") := by
  have hs := sprintf_fh m e
  have hp := parseDuration_hours (microHours m e) hfit
  obtain ⟨hlt, hH, hM⟩ := duration_hours_minutes (microHours m e) hfit
  have hne : F64.eq (F64.fin false m e) (F64.ofNat 0) = false := by
    cases h : F64.eq (F64.fin false m e) (F64.ofNat 0) with
    | false => rfl
    | true =>
      exfalso
      rw [F64.ofNat, F64.eq_fin_iff, F64.val_false, F64.val_false] at h
      have hmq : (0 : ℚ) < m := by exact_mod_cast hm
      have : (0 : ℚ) < (m : ℚ) * (2 : ℚ) ^ e := by positivity
      rw [h] at this
      simp at this
  unfold timeRemaining
  rw [hne]
  simp only [Bool.false_eq_true, if_false, hs, bind, Except.bind, hp, Option.getD_some, hlt, hH,
    hM]
  exact sprintf_hours_minutes _ _ _

theorem F64.rheQ_abs (x : ℚ) : |((F64.rheQ x : ℤ) : ℚ) - x| ≤ 1 / 2 := by
  have h1 := Int.floor_le x
  have h2 := Int.lt_floor_add_one x
  rw [abs_le]
  unfold F64.rheQ
  split_ifs <;> push_cast <;> constructor <;> linarith

theorem clock_img_space : clock_img ++ " " = "\uF254 " := by decide

/-- C10 as stated fails: 0.9999995 hours (its nearest float64) holds 0 whole
hours and 59 whole minutes, and its text parses without overflow, yet
`timeRemaining` returns "1h 60m"; 0.0333334 hours holds 2 whole minutes and
`timeRemaining` returns "0h 1m". -/
theorem timeRemaining_rounds_first_counterexample :
    F64.round false 9999995 10000000 0 = F64.fin false 9007194751141365 (-53) ∧
    Sprintf "%fh" [GoArg.f64 (F64.fin false 9007194751141365 (-53))] = .ok "1.000000h" ∧
    ParseDuration "1.000000h" = some 3600000000000 ∧
    timeRemaining (F64.fin false 9007194751141365 (-53)) = .ok "\uF254 1h 60m" ∧
    ⌊F64.toRat (F64.fin false 9007194751141365 (-53))⌋ = 0 ∧
    ⌊F64.toRat (F64.fin false 9007194751141365 (-53)) * 60⌋ = 59 ∧
    F64.round false 333334 10000000 0 = F64.fin false 4803849210207734 (-57) ∧
    timeRemaining (F64.fin false 4803849210207734 (-57)) = .ok "\uF254 0h 1m" ∧
    ⌊F64.toRat (F64.fin false 4803849210207734 (-57)) * 60⌋ = 2 := by
  refine ⟨by decide, by decide, by set_option maxRecDepth 100000 in decide,
    by set_option maxRecDepth 100000 in decide, ?_, ?_, by decide,
    by set_option maxRecDepth 100000 in decide, ?_⟩
  · rw [Int.floor_eq_iff]
    norm_num [F64.toRat, F64.val]
  · rw [Int.floor_eq_iff]
    norm_num [F64.toRat, F64.val]
  · rw [Int.floor_eq_iff]
    norm_num [F64.toRat, F64.val]

/-- C10, amended: for a positive finite duration `dur` (in hours) whose
text `%fh` parses without overflow, `timeRemaining` returns the clock glyph
U+F254 followed by " Hh Mm", where H is the whole number of hours and M the
whole number of minutes of the entire duration after `dur` has been rounded
to the nearest millionth of an hour (a tie going to the even millionth); so
60 H ≤ M < 60 (H + 1) and M is not reduced modulo 60; `dur = 1.5` gives
"1h 90m". -/
theorem timeRemaining_rounded_hours_and_total_minutes (m : Nat) (e : Int) (text : String)
    (d : ℤ) (hm : 0 < m) (htext : Sprintf "%fh" [GoArg.f64 (F64.fin false m e)] = .ok text)
    (hparse : ParseDuration text = some d) :
    |((F64.rheQ (F64.val false m e * 10 ^ 6) : ℤ) : ℚ) / 10 ^ 6 - F64.val false m e|
      ≤ 1 / (2 * 10 ^ 6) ∧
    d = 3600000 * F64.rheQ (F64.val false m e * 10 ^ 6) ∧ 0 ≤ d ∧ d ≤ 2 ^ 63 - 1 ∧
    (∃ H M : Nat,
      (H : ℤ) = ⌊((F64.rheQ (F64.val false m e * 10 ^ 6) : ℤ) : ℚ) / 10 ^ 6⌋ ∧
      (M : ℤ) = ⌊((F64.rheQ (F64.val false m e * 10 ^ 6) : ℤ) : ℚ) / 10 ^ 6 * 60⌋ ∧
      timeRemaining (F64.fin false m e) =
        .ok ("\uF254 " ++ toString H ++ "h " ++ toString M ++ "m") ∧
      60 * H ≤ M ∧ M < 60 * (H + 1)) ∧
    timeRemaining (F64.fin false 3 (-1)) = .ok "\uF254 1h 90m" := by
  have hs := sprintf_fh m e
  rw [hs] at htext
  have htext' := Except.ok.inj htext
  subst htext'
  obtain ⟨hfit, hd⟩ := parseDuration_fits (microHours m e) d hparse
  have hmh := microHours_eq m e
  have hfit' : microHours m e * 3600000 ≤ 9223372036854775807 := by norm_num at hfit; exact hfit
  have hq : ((F64.rheQ (F64.val false m e * 10 ^ 6) : ℤ) : ℚ) = ((microHours m e : Nat) : ℚ) := by
    rw [← hmh]; norm_cast
  have hH : ⌊((microHours m e : Nat) : ℚ) / 10 ^ 6⌋ =
      ((microHours m e * 3600000 / 3600000000000 : Nat) : ℤ) := by
    have h6 : ((microHours m e : Nat) : ℚ) / 10 ^ 6 =
        ((microHours m e : Nat) : ℚ) / ((1000000 : Nat) : ℚ) := by norm_num
    rw [h6, Rat.floor_natCast_div_natCast]
    norm_cast
    omega
  have hM : ⌊((microHours m e : Nat) : ℚ) / 10 ^ 6 * 60⌋ =
      ((microHours m e * 3600000 / 60000000000 : Nat) : ℤ) := by
    have e1 : ((microHours m e : Nat) : ℚ) / 10 ^ 6 * 60 =
        ((microHours m e * 60 : Nat) : ℚ) / ((1000000 : Nat) : ℚ) := by
      push_cast; ring
    rw [e1, Rat.floor_natCast_div_natCast]
    norm_cast
    omega
  have htr := timeRemaining_fits m e hm hfit
  rw [clock_img_space] at htr
  refine ⟨?_, ?_, ?_, ?_, ⟨microHours m e * 3600000 / 3600000000000,
    microHours m e * 3600000 / 60000000000, ?_, ?_, htr, by omega, by omega⟩, ?_⟩
  · have habs := F64.rheQ_abs (F64.val false m e * 10 ^ 6)
    have e2 : ((F64.rheQ (F64.val false m e * 10 ^ 6) : ℤ) : ℚ) / 10 ^ 6 - F64.val false m e =
        (((F64.rheQ (F64.val false m e * 10 ^ 6) : ℤ) : ℚ) - F64.val false m e * 10 ^ 6) /
          10 ^ 6 := by
      field_simp
      ring
    rw [e2, abs_div, abs_of_pos (by positivity : (0 : ℚ) < 10 ^ 6), div_le_iff₀ (by positivity)]
    calc |((F64.rheQ (F64.val false m e * 10 ^ 6) : ℤ) : ℚ) - F64.val false m e * 10 ^ 6|
        ≤ 1 / 2 := habs
      _ = 1 / (2 * 10 ^ 6) * 10 ^ 6 := by norm_num
  · rw [hd, ← hmh]; push_cast; ring
  · rw [hd]; exact Int.natCast_nonneg _
  · rw [hd]; norm_num; omega
  · rw [hq, hH]
  · rw [hq, hM]
  · set_option maxRecDepth 100000 in decide

/-- Witness of C10 amended: the duration 1.5 hours, printed as "1.500000h". -/
theorem timeRemaining_rounded_hours_and_total_minutes_witness :
    |((F64.rheQ (F64.val false 3 (-1) * 10 ^ 6) : ℤ) : ℚ) / 10 ^ 6 - F64.val false 3 (-1)|
      ≤ 1 / (2 * 10 ^ 6) ∧
    (5400000000000 : ℤ) = 3600000 * F64.rheQ (F64.val false 3 (-1) * 10 ^ 6) ∧
    (0 : ℤ) ≤ 5400000000000 ∧ (5400000000000 : ℤ) ≤ 2 ^ 63 - 1 ∧
    (∃ H M : Nat,
      (H : ℤ) = ⌊((F64.rheQ (F64.val false 3 (-1) * 10 ^ 6) : ℤ) : ℚ) / 10 ^ 6⌋ ∧
      (M : ℤ) = ⌊((F64.rheQ (F64.val false 3 (-1) * 10 ^ 6) : ℤ) : ℚ) / 10 ^ 6 * 60⌋ ∧
      timeRemaining (F64.fin false 3 (-1)) =
        .ok ("\uF254 " ++ toString H ++ "h " ++ toString M ++ "m") ∧
      60 * H ≤ M ∧ M < 60 * (H + 1)) ∧
    timeRemaining (F64.fin false 3 (-1)) = .ok "\uF254 1h 90m" :=
  timeRemaining_rounded_hours_and_total_minutes 3 (-1) "1.500000h" 5400000000000 (by decide)
    (by decide) (by set_option maxRecDepth 100000 in decide)

end PolybarAB
